import Mathlib

/-!
# FrogPilot settings controls: wiring, visibility and the numeric stepper

A shallow embedding of `selfdrive/frogpilot/ui/qt/widgets/frogpilot_controls.h`
and of the visibility propagator declared in
`selfdrive/frogpilot/ui/qt/offroad/longitudinal_settings.h`.

* Qt objects are trees carrying an identity, a dynamic class and an object
  name; `qobject_cast` is the is-a test on the dynamic class and a connection
  table records every `QObject::connect`.
* The parameter store (`Params`) is a pair of total maps with a log of the writes.
* `float` arithmetic is taken as exact, over `ℚ`; `fmod`, `std::round` and
  `qBound` follow their C/Qt definitions. The acceleration rule of the stepper
  is stated over an arbitrary arithmetic (`Arithmetic`), of which the exact one
  is an instance.
* A `QTimer::singleShot` is an entry of a list of pending callbacks; the
  event `timerFired i` runs one of them.
* A `QString` is the list of its code points; a regular expression that is one
  character class removes the code points of the class.
-/

namespace FrogPilot

/-! ## Qt objects and `makeConnections` -/

/-- The classes an object handed to `makeConnections` can have, with the Qt
classes they derive from. -/
inductive QClass where
  | QObject | QWidget | QFrame | QHBoxLayout | QLabel | QPushButton
  | AbstractControl | ButtonControl | ToggleControl | ParamControl | ButtonParamControl
  | FrogPilotButtonsControl | FrogPilotButtonToggleControl | FrogPilotParamManageControl
  | FrogPilotParamValueControl | FrogPilotParamValueButtonControl | FrogPilotDualParamControl
  deriving DecidableEq, Repr

/-- Modelled from the spec: the direct base class of each class. The FrogPilot
classes are declared in `frogpilot_controls.h` (`class FrogPilotButtonToggleControl
: public ParamControl`, `class FrogPilotParamValueButtonControl : public
FrogPilotParamValueControl`, `class FrogPilotDualParamControl : public QFrame`, ...);
the declarations of `AbstractControl`, `ToggleControl`, `ParamControl`,
`ButtonControl` and `ButtonParamControl` are in `selfdrive/ui/qt/widgets/controls.h`,
which is not among the sources: a `ParamControl` is a `ToggleControl`, and
`ToggleControl`, `ButtonControl` and `ButtonParamControl` derive from
`AbstractControl`, a `QFrame`. -/
def QClass.base : QClass → Option QClass
  | .QObject => none
  | .QWidget => some .QObject
  | .QFrame => some .QWidget
  | .QHBoxLayout => some .QObject
  | .QLabel => some .QFrame
  | .QPushButton => some .QWidget
  | .AbstractControl => some .QFrame
  | .ButtonControl => some .AbstractControl
  | .ToggleControl => some .AbstractControl
  | .ParamControl => some .ToggleControl
  | .ButtonParamControl => some .AbstractControl
  | .FrogPilotButtonsControl => some .AbstractControl
  | .FrogPilotButtonToggleControl => some .ParamControl
  | .FrogPilotParamManageControl => some .ParamControl
  | .FrogPilotParamValueControl => some .AbstractControl
  | .FrogPilotParamValueButtonControl => some .FrogPilotParamValueControl
  | .FrogPilotDualParamControl => some .QFrame

/-- Walks at most `n` steps up the base-class chain of `c` looking for `t`. -/
def QClass.inheritsWithin : Nat → QClass → QClass → Bool
  | 0, _, _ => false
  | n + 1, c, t => decide (c = t) || (match c.base with
      | none => false
      | some b => QClass.inheritsWithin n b t)

/-- The is-a relation: `c` is `t` or derives from it (the longest chain has 7 classes). -/
def QClass.inherits (c t : QClass) : Bool := QClass.inheritsWithin 8 c t

/-- A `QObject` with its identity (the pointer), dynamic class, object name and
children, in the order they were added. -/
inductive QObject where
  | mk (id : Nat) (cls : QClass) (objectName : String) (children : List QObject)

/-- The identity of the object. -/
def QObject.id : QObject → Nat
  | .mk i _ _ _ => i

/-- The dynamic class of the object. -/
def QObject.cls : QObject → QClass
  | .mk _ c _ _ => c

/-- The name given with `setObjectName`, empty by default. -/
def QObject.objectName : QObject → String
  | .mk _ _ n _ => n

/-- The children of the object. -/
def QObject.children : QObject → List QObject
  | .mk _ _ _ cs => cs

/-- The object after `setObjectName(name)`. -/
def QObject.setObjectName : QObject → String → QObject
  | .mk i c _ cs, n => .mk i c n cs

mutual
/-- The number of objects in the tree below and including the object. -/
def QObject.size : QObject → Nat
  | .mk _ _ _ cs => 1 + QObject.sizeList cs
/-- The number of objects in a list of trees. -/
def QObject.sizeList : List QObject → Nat
  | [] => 0
  | c :: cs => QObject.size c + QObject.sizeList cs
end

/-- The size of the tree a pointer leads to; a null pointer leads to nothing. -/
def ptrSize : Option QObject → Nat
  | none => 0
  | some o => o.size

/-- The test `qobject_cast<T*>(o) != nullptr`: it succeeds when the dynamic class of
`o` is `T` or derives from it. -/
def qobject_cast (t : QClass) (o : QObject) : Bool := o.cls.inherits t

/-- The first object of the list whose name is `name`. -/
def findDirectChild (name : String) : List QObject → Option QObject
  | [] => none
  | c :: cs => if c.objectName = name then some c else findDirectChild name cs

mutual
/-- The call `findChild<QObject*>(name)` of Qt: the direct children are searched
first, then each child's subtree in turn; `none` is the null pointer. -/
def findChild (name : String) : QObject → Option QObject
  | .mk _ _ _ cs =>
    match findDirectChild name cs with
    | some o => some o
    | none => findChildDeep name cs
/-- The recursive part of `findChild`, over the subtrees of a list of children. -/
def findChildDeep (name : String) : List QObject → Option QObject
  | [] => none
  | c :: cs =>
    match findChild name c with
    | some o => some o
    | none => findChildDeep name cs
end

/-- The change signals `makeConnections` connects to, each named after the class
that declares it. -/
inductive Signal where
  | ButtonParamControl_buttonClicked
  | FrogPilotButtonsControl_buttonClicked
  | FrogPilotButtonToggleControl_buttonClicked
  | FrogPilotParamValueButtonControl_buttonClicked
  | FrogPilotParamValueControl_valueChanged
  | ToggleControl_toggleFlipped
  deriving DecidableEq, Repr

/-- The class that declares the signal. -/
def Signal.owner : Signal → QClass
  | .ButtonParamControl_buttonClicked => .ButtonParamControl
  | .FrogPilotButtonsControl_buttonClicked => .FrogPilotButtonsControl
  | .FrogPilotButtonToggleControl_buttonClicked => .FrogPilotButtonToggleControl
  | .FrogPilotParamValueButtonControl_buttonClicked => .FrogPilotParamValueButtonControl
  | .FrogPilotParamValueControl_valueChanged => .FrogPilotParamValueControl
  | .ToggleControl_toggleFlipped => .ToggleControl

/-- An object emits a signal when its class is, or derives from, the class that
declares the signal. -/
def emitsSignal (o : QObject) (sig : Signal) : Bool := o.cls.inherits sig.owner

/-- One `QObject::connect(sender, signal, [slot]() { slot(); })`; `slot` names the callback. -/
structure Connection where
  sender : Nat
  signal : Signal
  slot : Nat
  deriving DecidableEq, Repr

/-- The connection table after `QObject::connect(o, sig, ...)`: one more entry
(Qt keeps duplicates of a connection to a functor). -/
def connect (o : QObject) (sig : Signal) (slot : Nat) (conns : List Connection) :
    List Connection :=
  conns ++ [⟨o.id, sig, slot⟩]

/-- One block of `makeConnections`: `T *p = qobject_cast<T*>(obj); if (p) connect(p, sig, slot)`. -/
def connectIfCast (t : QClass) (obj : QObject) (sig : Signal) (slot : Nat)
    (conns : List Connection) : List Connection :=
  if qobject_cast t obj then connect obj sig slot conns else conns

/-- The body of `makeConnections(controlToggle, slot)`, with a bound on the depth of
the recursion into the children of a dual control. It returns the connection
table after the call. -/
def makeConnectionsFuel : Nat → Option QObject → Nat → List Connection → List Connection
  | 0, _, _, conns => conns
  | _ + 1, none, _, conns => conns
  | fuel + 1, some obj, slot, conns =>
    let conns := connectIfCast .ButtonParamControl obj .ButtonParamControl_buttonClicked slot conns
    let conns := connectIfCast .FrogPilotButtonsControl obj
      .FrogPilotButtonsControl_buttonClicked slot conns
    let conns := connectIfCast .FrogPilotButtonToggleControl obj
      .FrogPilotButtonToggleControl_buttonClicked slot conns
    if qobject_cast .FrogPilotDualParamControl obj then
      let conns := match findChild "control1" obj with
        | some control1 => makeConnectionsFuel fuel (some control1) slot conns
        | none => conns
      let conns := match findChild "control2" obj with
        | some control2 => makeConnectionsFuel fuel (some control2) slot conns
        | none => conns
      conns
    else
      let conns := connectIfCast .FrogPilotParamValueButtonControl obj
        .FrogPilotParamValueButtonControl_buttonClicked slot conns
      let conns := connectIfCast .FrogPilotParamValueControl obj
        .FrogPilotParamValueControl_valueChanged slot conns
      let conns := connectIfCast .ParamControl obj .ToggleControl_toggleFlipped slot conns
      let conns := connectIfCast .ToggleControl obj .ToggleControl_toggleFlipped slot conns
      conns

/-- The function `makeConnections(controlToggle, slot)`: every recursive call is on a
proper descendant of its argument, so a depth of the size of the tree is never
used up (`makeConnectionsFuel_stable`). -/
def makeConnections (controlToggle : Option QObject) (slot : Nat) (conns : List Connection) :
    List Connection :=
  makeConnectionsFuel (ptrSize controlToggle + 1) controlToggle slot conns

/-- The slots invoked, in connection order, by one emission of `sig` from `sender`. -/
def emit (conns : List Connection) (sender : Nat) (sig : Signal) : List Nat :=
  (conns.filter (fun c => decide (c.sender = sender ∧ c.signal = sig))).map Connection.slot

/-- How many times one emission of `sig` from `sender` invokes `slot`. -/
def invocations (conns : List Connection) (sender : Nat) (sig : Signal) (slot : Nat) : Nat :=
  (emit conns sender sig).count slot

/-- The constructor `FrogPilotDualParamControl(control1, control2)`: the layout is
created as a child, `addWidget` makes the two controls children, and they are
named "control1" and "control2". -/
def FrogPilotDualParamControl.new (id layoutId : Nat) (control1 control2 : QObject) : QObject :=
  .mk id .FrogPilotDualParamControl ""
    [.mk layoutId .QHBoxLayout "" [], control1.setObjectName "control1",
      control2.setObjectName "control2"]

/-- The connections `makeConnections` adds for an object that is not a dual
control, block by block. -/
def leafWiring (obj : QObject) (slot : Nat) : List Connection :=
  (if qobject_cast .ButtonParamControl obj
    then [⟨obj.id, .ButtonParamControl_buttonClicked, slot⟩] else []) ++
  (if qobject_cast .FrogPilotButtonsControl obj
    then [⟨obj.id, .FrogPilotButtonsControl_buttonClicked, slot⟩] else []) ++
  (if qobject_cast .FrogPilotButtonToggleControl obj
    then [⟨obj.id, .FrogPilotButtonToggleControl_buttonClicked, slot⟩] else []) ++
  (if qobject_cast .FrogPilotParamValueButtonControl obj
    then [⟨obj.id, .FrogPilotParamValueButtonControl_buttonClicked, slot⟩] else []) ++
  (if qobject_cast .FrogPilotParamValueControl obj
    then [⟨obj.id, .FrogPilotParamValueControl_valueChanged, slot⟩] else []) ++
  (if qobject_cast .ParamControl obj
    then [⟨obj.id, .ToggleControl_toggleFlipped, slot⟩] else []) ++
  (if qobject_cast .ToggleControl obj
    then [⟨obj.id, .ToggleControl_toggleFlipped, slot⟩] else [])

/-! ## The parameter store -/

/-- A value written to the store. -/
inductive ParamValue where
  | bool (b : Bool)
  | float (x : ℚ)
  deriving DecidableEq

/-- The store behind `Params`: the value under every key (a missing key reads
as `false` or `0`) and the writes made so far, oldest first. -/
structure Params where
  bools : String → Bool
  floats : String → ℚ
  writes : List (String × ParamValue)

/-- The call `params.getBool(key)`. -/
def Params.getBool (p : Params) (key : String) : Bool := p.bools key

/-- The call `params.getFloat(key)`. -/
def Params.getFloat (p : Params) (key : String) : ℚ := p.floats key

/-- The call `params.putBool(key, b)`. -/
def Params.putBool (p : Params) (key : String) (b : Bool) : Params :=
  { p with bools := fun k => if k = key then b else p.bools k,
           writes := p.writes ++ [(key, .bool b)] }

/-- The call `params.putFloat(key, x)`. -/
def Params.putFloat (p : Params) (key : String) (x : ℚ) : Params :=
  { p with floats := fun k => if k = key then x else p.floats k,
           writes := p.writes ++ [(key, .float x)] }

/-- A store in which nothing was written. -/
def emptyParams : Params := { bools := fun _ => false, floats := fun _ => 0, writes := [] }

/-! ## The numeric stepper `FrogPilotParamValueControl` -/

/-- Truncation toward zero, the integer part C's `fmod` uses. -/
def truncQ (q : ℚ) : ℤ := if 0 ≤ q then ⌊q⌋ else ⌈q⌉

/-- C's `fmod(x, y)` for `y ≠ 0`: `x - trunc(x / y) * y`, which has the sign of `x`. -/
def fmod (x y : ℚ) : ℚ := x - (truncQ (x / y) : ℚ) * y

/-- C's `std::round`: to the nearest integer, halfway cases away from zero. -/
def stdRound (x : ℚ) : ℤ := if 0 ≤ x then ⌊x + 1 / 2⌋ else ⌈x - 1 / 2⌉

/-- Qt's `qBound(min, val, max)`, which is `qMax(min, qMin(max, val))`. -/
def qBound (mn v mx : ℚ) : ℚ := max mn (min mx v)

/-- The value `std::ceil(-std::log10(interval))` for `interval > 0`: the least
integer `d` with `1 / interval ≤ 10 ^ d` (`decimalPlacesOf_eq_ceil`). -/
def decimalPlacesOf (interval : ℚ) : ℤ := Int.clog 10 interval⁻¹

/-- The state of a `FrogPilotParamValueControl`: its members, the store it
accesses, the `valueChanged` emissions so far and the pending single-shot
callbacks of `onButtonReleased`, each with the `lastValue` it captured. The
text of the value label is not modelled. -/
structure FrogPilotParamValueControl where
  key : String
  minValue : ℚ
  maxValue : ℚ
  interval : ℚ
  decimalPlaces : ℤ
  factor : ℚ
  instantUpdate : Bool
  previousDelta : Bool
  value : ℚ
  params : Params
  valueChangedLog : List ℚ
  timers : List ℚ

namespace FrogPilotParamValueControl

/-- The constructor. `previousDelta` and `value` have no initialiser in the class,
so what they hold is an argument here. -/
def new (param : String) (minValue maxValue interval : ℚ) (instantUpdate : Bool)
    (previousDelta : Bool) (value : ℚ) (params : Params) : FrogPilotParamValueControl :=
  { key := param, minValue := minValue, maxValue := maxValue, interval := interval,
    decimalPlaces := decimalPlacesOf interval,
    factor := (10 : ℚ) ^ decimalPlacesOf interval,
    instantUpdate := instantUpdate, previousDelta := previousDelta, value := value,
    params := params, valueChangedLog := [], timers := [] }

/-- The method `updateValueDisplay()`: in immediate mode it emits `valueChanged(value)`. -/
def updateValueDisplay (c : FrogPilotParamValueControl) : FrogPilotParamValueControl :=
  if c.instantUpdate then { c with valueChangedLog := c.valueChangedLog ++ [c.value] } else c

/-- The method `refresh()`, also run by `showEvent`. -/
def refresh (c : FrogPilotParamValueControl) : FrogPilotParamValueControl :=
  updateValueDisplay { c with value := c.params.getFloat c.key }

/-- The method `updateControl(newMinValue, newMaxValue, newLabel)`. -/
def updateControl (c : FrogPilotParamValueControl) (newMinValue newMaxValue : ℚ) :
    FrogPilotParamValueControl :=
  refresh { c with minValue := newMinValue, maxValue := newMaxValue }

/-- The first statement of `adjustValue(delta)`: the step that will be added to the
value, and the new `previousDelta`. -/
def accelerate (c : FrogPilotParamValueControl) (delta : ℚ) : ℚ × Bool :=
  let modResult := fmod c.value (5 * c.interval)
  if modResult < c.interval then
    (if c.previousDelta then delta * 5 else delta, true)
  else
    (delta, c.previousDelta)

/-- The method `adjustValue(delta)`. -/
def adjustValue (c : FrogPilotParamValueControl) (delta : ℚ) : FrogPilotParamValueControl :=
  let step := accelerate c delta
  let value := qBound c.minValue (c.value + step.1) c.maxValue
  let value := (stdRound (value * c.factor) : ℚ) / c.factor
  updateValueDisplay { c with value := value, previousDelta := step.2 }

/-- The slot of the increment button's `pressed`. -/
def onIncrementPressed (c : FrogPilotParamValueControl) : FrogPilotParamValueControl :=
  adjustValue c c.interval

/-- The slot of the decrement button's `pressed`. -/
def onDecrementPressed (c : FrogPilotParamValueControl) : FrogPilotParamValueControl :=
  adjustValue c (-c.interval)

/-- The slot `onButtonReleased()`: it schedules a callback that captures the value. -/
def onButtonReleased (c : FrogPilotParamValueControl) : FrogPilotParamValueControl :=
  let lastValue := c.value
  { c with timers := c.timers ++ [lastValue] }

/-- The callback `onButtonReleased` hands to `QTimer::singleShot(50, ...)`. -/
def releaseCallback (lastValue : ℚ) (c : FrogPilotParamValueControl) :
    FrogPilotParamValueControl :=
  if lastValue ≠ c.value then c
  else
    let committed := { c with previousDelta := false, params := c.params.putFloat c.key c.value }
    if !committed.instantUpdate then
      { committed with valueChangedLog := committed.valueChangedLog ++ [committed.value] }
    else committed

/-- The control once the single-shot timer at position `i` has expired. -/
def dropTimer (c : FrogPilotParamValueControl) (i : Nat) : FrogPilotParamValueControl :=
  { c with timers := c.timers.eraseIdx i }

end FrogPilotParamValueControl

/-- What can happen to a stepper: a press of either button, a release, the expiry
of the pending timer at position `i`, and a show event. -/
inductive StepperEvent where
  | incrementPressed
  | decrementPressed
  | buttonReleased
  | timerFired (i : Nat)
  | shown
  deriving DecidableEq

/-- One event handled by the stepper. An expiry for which no timer is pending
does nothing. -/
def stepperStep (c : FrogPilotParamValueControl) : StepperEvent → FrogPilotParamValueControl
  | .incrementPressed => c.onIncrementPressed
  | .decrementPressed => c.onDecrementPressed
  | .buttonReleased => c.onButtonReleased
  | .timerFired i =>
    match c.timers[i]? with
    | none => c
    | some lastValue => FrogPilotParamValueControl.releaseCallback lastValue (c.dropTimer i)
  | .shown => c.refresh

/-- The stepper after a sequence of events, handled one after the other. -/
def stepperRun (c : FrogPilotParamValueControl) (events : List StepperEvent) :
    FrogPilotParamValueControl :=
  events.foldl stepperStep c

/-- Whether the event is a press, that is, a call of `adjustValue`. -/
def StepperEvent.isPress : StepperEvent → Bool
  | .incrementPressed => true
  | .decrementPressed => true
  | _ => false

/-- Whether the event is the expiry of a timer whose callback commits: the value
it captured is the current one. -/
def commits (c : FrogPilotParamValueControl) : StepperEvent → Bool
  | .timerFired i =>
    match c.timers[i]? with
    | some lastValue => decide (lastValue = c.value)
    | none => false
  | _ => false

/-- The members that no event changes are the same in both controls. -/
def SameConfig (c d : FrogPilotParamValueControl) : Prop :=
  d.key = c.key ∧ d.minValue = c.minValue ∧ d.maxValue = c.maxValue ∧ d.interval = c.interval ∧
    d.decimalPlaces = c.decimalPlaces ∧ d.factor = c.factor ∧ d.instantUpdate = c.instantUpdate

/-! ### The stepper over the arithmetic of the machine -/

/-- The arithmetic behind the `float` expressions of `adjustValue`, a `float` being
the rational it stands for: `mul`, `add` and `div` are `*`, `+` and `/`, and
`fmod` and `round` the two library calls. Comparisons, `qBound` and the unary
minus are exact in every arithmetic. -/
structure Arithmetic where
  mul : ℚ → ℚ → ℚ
  add : ℚ → ℚ → ℚ
  div : ℚ → ℚ → ℚ
  fmod : ℚ → ℚ → ℚ
  round : ℚ → ℚ

/-- The arithmetic without rounding error, the one of `adjustValue` above. -/
def exactArithmetic : Arithmetic :=
  { mul := fun x y => x * y, add := fun x y => x + y, div := fun x y => x / y,
    fmod := fun x y => fmod x y, round := fun x => (stdRound x : ℚ) }

/-- The first statement of `adjustValue(delta)` in the given arithmetic: the step
that will be added to the value, and the new `previousDelta`. -/
def FrogPilotParamValueControl.accelerateWith (arith : Arithmetic)
    (c : FrogPilotParamValueControl) (delta : ℚ) : ℚ × Bool :=
  let modResult := arith.fmod c.value (arith.mul 5 c.interval)
  if modResult < c.interval then
    (if c.previousDelta then arith.mul delta 5 else delta, true)
  else
    (delta, c.previousDelta)

/-- The method `adjustValue(delta)` in the given arithmetic. -/
def FrogPilotParamValueControl.adjustValueWith (arith : Arithmetic)
    (c : FrogPilotParamValueControl) (delta : ℚ) : FrogPilotParamValueControl :=
  let step := c.accelerateWith arith delta
  let value := qBound c.minValue (arith.add c.value step.1) c.maxValue
  let value := arith.div (arith.round (arith.mul value c.factor)) c.factor
  FrogPilotParamValueControl.updateValueDisplay
    { c with value := value, previousDelta := step.2 }

/-- One event handled by the stepper in the given arithmetic. -/
def stepperStepWith (arith : Arithmetic) (c : FrogPilotParamValueControl) :
    StepperEvent → FrogPilotParamValueControl
  | .incrementPressed => c.adjustValueWith arith c.interval
  | .decrementPressed => c.adjustValueWith arith (-c.interval)
  | .buttonReleased => c.onButtonReleased
  | .timerFired i =>
    match c.timers[i]? with
    | none => c
    | some lastValue => FrogPilotParamValueControl.releaseCallback lastValue (c.dropTimer i)
  | .shown => c.refresh

/-- The stepper after a sequence of events in the given arithmetic. -/
def stepperRunWith (arith : Arithmetic) (c : FrogPilotParamValueControl)
    (events : List StepperEvent) : FrogPilotParamValueControl :=
  events.foldl (stepperStepWith arith) c

/-- The condition `fmod(value, 5.0f * interval) < interval` of `adjustValue`, as the
given arithmetic computes it. -/
def crossesWith (arith : Arithmetic) (c : FrogPilotParamValueControl) : Bool :=
  decide (arith.fmod c.value (arith.mul 5 c.interval) < c.interval)

/-- Some press of the sequence was made with the remainder condition true, and no
callback committed after it. -/
def armedWith (arith : Arithmetic) (c : FrogPilotParamValueControl)
    (events : List StepperEvent) : Prop :=
  ∃ j e, events[j]? = some e ∧ e.isPress = true ∧
    crossesWith arith (stepperRunWith arith c (events.take j)) = true ∧
    ∀ k e2, j < k → events[k]? = some e2 →
      commits (stepperRunWith arith c (events.take k)) e2 = false

/-- Neither the clamp nor the rounding of `adjustValue` alters `value + step`: the
sum is within `[minValue, maxValue]` and rounding it to the precision gives it
back. -/
def Unaltered (arith : Arithmetic) (c : FrogPilotParamValueControl) (step : ℚ) : Prop :=
  c.minValue ≤ arith.add c.value step ∧ arith.add c.value step ≤ c.maxValue ∧
    arith.div (arith.round (arith.mul (arith.add c.value step) c.factor)) c.factor =
      arith.add c.value step

/-! ## The toggle with buttons `FrogPilotButtonToggleControl` -/

/-- The visual state of one button of a button group. `visible` is what
`setVisible` set. -/
structure QPushButton where
  visible : Bool
  checked : Bool
  deriving DecidableEq, Repr

/-- The call `button->setVisible(visible)` on button `i` of the group. -/
def setVisible (buttons : List QPushButton) (i : Nat) (visible : Bool) : List QPushButton :=
  buttons.modify (fun b => { b with visible := visible }) i

/-- Qt's `QAbstractButton::setChecked(checked)` on the checkable button `i` of a
`QButtonGroup`. In an exclusive group the checked button cannot be unchecked,
and checking a button unchecks the others; in a group that is not exclusive
only button `i` changes. -/
def setChecked (exclusive : Bool) (buttons : List QPushButton) (i : Nat) (checked : Bool) :
    List QPushButton :=
  match buttons[i]? with
  | none => buttons
  | some b =>
    if b.checked = checked then buttons
    else if exclusive && !checked then buttons
    else if exclusive then buttons.mapIdx (fun j other => { other with checked := decide (j = i) })
    else buttons.set i { b with checked := checked }

/-- The state of a `FrogPilotButtonToggleControl`: `toggleOn` is `toggle.on`, and
`buttons` is `buttonGroup->buttons()`, button `i` at position `i`. -/
structure FrogPilotButtonToggleControl where
  key : String
  buttonParams : List String
  exclusive : Bool
  toggleOn : Bool
  buttons : List QPushButton
  params : Params
  buttonClickedLog : List Nat

namespace FrogPilotButtonToggleControl

/-- Modelled from the spec: `Toggle::togglePosition()` of
`selfdrive/ui/qt/widgets/toggle.h`, not among the sources; it flips `on` and
emits nothing. -/
def togglePosition (c : FrogPilotButtonToggleControl) : FrogPilotButtonToggleControl :=
  { c with toggleOn := !c.toggleOn }

/-- One round of the loop of `refresh()`. The buttons of the group are distinct, so
`buttons.indexOf(button)` is the position of the button; `buttonParams[buttonIndex]`
past the end of the vector has no defined result, which is `none`. -/
def refreshButton (state : Bool) (c : FrogPilotButtonToggleControl) (buttonIndex : Nat) :
    Option FrogPilotButtonToggleControl :=
  match c.buttonParams[buttonIndex]? with
  | none => none
  | some param =>
    some { c with buttons := setChecked c.exclusive (setVisible c.buttons buttonIndex state)
                    buttonIndex (c.params.getBool param) }

/-- The method `refresh()`. -/
def refresh (c : FrogPilotButtonToggleControl) : Option FrogPilotButtonToggleControl :=
  let state := c.params.getBool c.key
  let c := if state ≠ c.toggleOn then togglePosition c else c
  (List.range c.buttons.length).foldlM (refreshButton state) c

/-- The slot of the `clicked(checked)` signal of button `i`. -/
def buttonClicked (c : FrogPilotButtonToggleControl) (i : Nat) (checked : Bool) :
    Option FrogPilotButtonToggleControl :=
  match c.buttonParams[i]? with
  | none => none
  | some param =>
    some { c with params := c.params.putBool param checked,
                  buttons := setChecked c.exclusive c.buttons i checked,
                  buttonClickedLog := c.buttonClickedLog ++ [i] }

end FrogPilotButtonToggleControl

/-! ## The manage control `FrogPilotParamManageControl` -/

/-- The state of a `FrogPilotParamManageControl`: `enabled` is `this->isEnabled()`,
`manageButtonEnabled` is what `manageButton->setEnabled` set. -/
structure FrogPilotParamManageControl where
  key : String
  enabled : Bool
  toggleOn : Bool
  manageButtonEnabled : Bool
  params : Params

namespace FrogPilotParamManageControl

/-- The private method `refresh()`. -/
def refresh (c : FrogPilotParamManageControl) : FrogPilotParamManageControl :=
  { c with manageButtonEnabled := c.enabled && c.params.getBool c.key }

/-- Modelled from the spec: `ParamControl::showEvent` of
`selfdrive/ui/qt/widgets/controls.h`, not among the sources; it brings the
toggle in line with the stored boolean. -/
def paramControlShowEvent (c : FrogPilotParamManageControl) : FrogPilotParamManageControl :=
  { c with toggleOn := c.params.getBool c.key }

/-- The method `showEvent(event)`. -/
def showEvent (c : FrogPilotParamManageControl) : FrogPilotParamManageControl :=
  refresh (paramControlShowEvent c)

/-- The slot the constructor connects to `toggleFlipped`, which is `refresh`. -/
def onToggleFlipped (c : FrogPilotParamManageControl) : FrogPilotParamManageControl :=
  refresh c

/-- Whether the "MANAGE" button is enabled: Qt enables a child widget only while
its parent is enabled, whatever `setEnabled` set on the child. -/
def manageButtonIsEnabled (c : FrogPilotParamManageControl) : Bool :=
  c.manageButtonEnabled && c.enabled

end FrogPilotParamManageControl

/-! ## The visibility propagator `showToggles` -/

/-- Modelled from the spec: `FrogPilotLongitudinalPanel::showToggles(keys)` is only
declared in `longitudinal_settings.h`; its body is in `longitudinal_settings.cc`,
not among the sources. The spec: "For every entry in the panel's key→control
registry, the control is shown iff its key is a member of the input set, else
hidden." The registry `toggles` (`std::map<QString, AbstractControl*>`) is the
list of its entries in iteration order, a control being the identity of the
widget, and `visible` is the visibility of every widget. -/
def showToggles (keys : Finset String) (toggles : List (String × Nat)) (visible : Nat → Bool) :
    Nat → Bool :=
  toggles.foldl (fun vis entry => Function.update vis entry.2 (decide (entry.1 ∈ keys))) visible

/-! ## The model name cleaner `processModelName` -/

/-- A `QString` as the sequence of the code points of its text (well-formed
UTF-16, which is what the regular expressions of Qt match on). -/
abbrev QString := List Char

/-- The character class of the first regular expression, `[🗺️👀📡]`: the code points
U+1F5FA, U+FE0F, U+1F440 and U+1F4E1 of the pattern. -/
def isMarker (c : Char) : Bool :=
  decide (c.toNat = 0x1F5FA) || decide (c.toNat = 0xFE0F) || decide (c.toNat = 0x1F440) ||
    decide (c.toNat = 0x1F4E1)

/-- Qt's `QChar::isSpace`: the space, U+0009 to U+000D, U+0085, U+00A0 and the
characters of the Unicode separator categories. -/
def isSpace (c : Char) : Bool :=
  decide (c.toNat = 0x20) || (decide (0x09 ≤ c.toNat) && decide (c.toNat ≤ 0x0D)) ||
    decide (c.toNat = 0x85) || decide (c.toNat = 0xA0) || decide (c.toNat = 0x1680) ||
    (decide (0x2000 ≤ c.toNat) && decide (c.toNat ≤ 0x200A)) ||
    decide (c.toNat = 0x2028) || decide (c.toNat = 0x2029) || decide (c.toNat = 0x202F) ||
    decide (c.toNat = 0x205F) || decide (c.toNat = 0x3000)

/-- The characters `a-zA-Z0-9` of the second regular expression. -/
def isAsciiAlnum (c : Char) : Bool :=
  (decide (0x61 ≤ c.toNat) && decide (c.toNat ≤ 0x7A)) ||
    (decide (0x41 ≤ c.toNat) && decide (c.toNat ≤ 0x5A)) ||
    (decide (0x30 ≤ c.toNat) && decide (c.toNat ≤ 0x39))

/-- The characters the class `[^a-zA-Z0-9()-]` of the second regular expression
does not match: ASCII letters and digits, the two parentheses and the hyphen. -/
def isScoreChar (c : Char) : Bool :=
  isAsciiAlnum c || decide (c.toNat = 0x28) || decide (c.toNat = 0x29) || decide (c.toNat = 0x2D)

/-- The call `s.remove(QRegularExpression(cls))` for a pattern that is one character
class: every match is one code point of the class, and all of them are removed. -/
def removeMatches (cls : Char → Bool) (s : QString) : QString :=
  s.filter (fun c => !cls c)

/-- The copying loop of Qt's `QString::simplified()`: leading whitespace and the
whitespace after a separator is skipped (`skipping`), a word is copied, and a
word that is followed by anything gets one space after it. -/
def simplifiedLoop : Bool → QString → QString
  | _, [] => []
  | true, c :: cs => if isSpace c then simplifiedLoop true cs else c :: simplifiedLoop false cs
  | false, c :: cs =>
    if isSpace c then ' ' :: simplifiedLoop true cs else c :: simplifiedLoop false cs

/-- The last step of `QString::simplified()`: a space at the end is dropped. -/
def dropTrailingSpace : QString → QString
  | [] => []
  | [c] => if c = ' ' then [] else [c]
  | c :: d :: cs => c :: dropTrailingSpace (d :: cs)

/-- Qt's `QString::simplified()`: whitespace removed from both ends and every run of
whitespace inside replaced by one space. -/
def simplified (s : QString) : QString :=
  dropTrailingSpace (simplifiedLoop true s)

/-- Whether `s` begins with `before`. -/
def startsWith : QString → QString → Bool
  | [], _ => true
  | _ :: _, [] => false
  | b :: bs, c :: cs => decide (b = c) && startsWith bs cs

/-- The scan of `s.replace(before, "")`: `skip` characters of an occurrence found
earlier are still to be passed over; otherwise an occurrence that starts here
is dropped whole and the search goes on after it, and any other character is
kept. -/
def removeAllFrom (before : QString) : Nat → QString → QString
  | _, [] => []
  | skip + 1, _ :: cs => removeAllFrom before skip cs
  | 0, c :: cs =>
    if startsWith before (c :: cs) then removeAllFrom before (before.length - 1) cs
    else c :: removeAllFrom before 0 cs

/-- The call `s.replace(before, "")` for a `before` that is not empty: the
occurrences of `before`, found from left to right without overlap, are removed. -/
def removeAll (before : QString) (s : QString) : QString :=
  removeAllFrom before 0 s

/-- The function `processModelName(modelName)`. -/
def processModelName (modelName : QString) : QString :=
  let modelCleaned := modelName
  let modelCleaned := simplified (removeMatches isMarker modelCleaned)
  let scoreParam := modelCleaned
  let scoreParam := removeMatches (fun c => !isScoreChar c) scoreParam
  let scoreParam := removeAll "-".toList (removeAll "(Default)".toList
    (removeAll " ".toList scoreParam))
  scoreParam

/-- The list `r` is `s` with some occurrences of `w`, which do not overlap, taken
out and every other character left in place. -/
inductive DeletesOccurrences (w : QString) : QString → QString → Prop where
  | nil : DeletesOccurrences w [] []
  | keep (c : Char) {s r : QString} : DeletesOccurrences w s r →
      DeletesOccurrences w (c :: s) (c :: r)
  | drop {s r : QString} : DeletesOccurrences w s r → DeletesOccurrences w (w ++ s) r

/-! ## Theorems: `makeConnections` -/

theorem qobject_cast_mk (t : QClass) (i : Nat) (c : QClass) (n : String) (cs : List QObject) :
    qobject_cast t (QObject.mk i c n cs) = c.inherits t := rfl

theorem findDirectChild_size (name : String) (cs : List QObject) (o : QObject)
    (h : findDirectChild name cs = some o) : o.size ≤ QObject.sizeList cs := by
  induction cs with
  | nil => simp [findDirectChild] at h
  | cons c cs ih =>
    simp only [findDirectChild] at h
    split at h
    · cases h
      simp [QObject.sizeList]
    · have := ih h
      simp only [QObject.sizeList]
      omega

mutual
theorem findChild_size (name : String) :
    ∀ (p o : QObject), findChild name p = some o → o.size < p.size
  | .mk _ _ _ cs, o, h => by
    simp only [findChild] at h
    simp only [QObject.size]
    split at h
    · next o2 h2 =>
      cases h
      have := findDirectChild_size name cs _ h2
      omega
    · have := findChildDeep_size name cs o h
      omega
theorem findChildDeep_size (name : String) :
    ∀ (cs : List QObject) (o : QObject), findChildDeep name cs = some o →
      o.size ≤ QObject.sizeList cs
  | [], o, h => by simp [findChildDeep] at h
  | c :: cs, o, h => by
    simp only [findChildDeep] at h
    simp only [QObject.sizeList]
    split at h
    · next o2 h2 =>
      cases h
      have := findChild_size name c _ h2
      omega
    · have := findChildDeep_size name cs o h
      omega
end

/-- The depth bound of `makeConnectionsFuel` is never reached: any bound above the
size of the tree gives the result of `makeConnections`. -/
theorem makeConnectionsFuel_stable (n : Nat) :
    ∀ (p : Option QObject) (slot : Nat) (conns : List Connection), ptrSize p < n →
      makeConnectionsFuel n p slot conns = makeConnections p slot conns := by
  induction n using Nat.strong_induction_on with
  | _ n ih =>
    have key : ∀ (m : Nat) (p : Option QObject) (slot : Nat) (conns : List Connection),
        m < n → ptrSize p < m →
        makeConnectionsFuel m p slot conns =
          makeConnectionsFuel (ptrSize p + 1) p slot conns := by
      intro m p slot conns hm hp
      rw [ih m hm p slot conns hp]
      rfl
    intro p slot conns hp
    cases p with
    | none =>
      cases n with
      | zero => rfl
      | succ n => rfl
    | some obj =>
      cases n with
      | zero => exact absurd hp (Nat.not_lt_zero _)
      | succ n =>
        simp only [makeConnections, ptrSize, makeConnectionsFuel]
        simp only [ptrSize] at hp
        split_ifs with hd
        · have e1 : ∀ cs, (match findChild "control1" obj with
              | some control1 => makeConnectionsFuel n (some control1) slot cs
              | none => cs) =
            (match findChild "control1" obj with
              | some control1 => makeConnectionsFuel obj.size (some control1) slot cs
              | none => cs) := by
            intro cs
            cases h1 : findChild "control1" obj with
            | none => rfl
            | some c1 =>
              have hs := findChild_size _ _ _ h1
              simp only
              by_cases hn : n = obj.size
              · rw [hn]
              · rw [key n (some c1) slot cs (by omega) (by simp only [ptrSize]; omega),
                  ih obj.size (by omega) (some c1) slot cs (by simpa [ptrSize] using hs)]
                rfl
          have e2 : ∀ cs, (match findChild "control2" obj with
              | some control2 => makeConnectionsFuel n (some control2) slot cs
              | none => cs) =
            (match findChild "control2" obj with
              | some control2 => makeConnectionsFuel obj.size (some control2) slot cs
              | none => cs) := by
            intro cs
            cases h2 : findChild "control2" obj with
            | none => rfl
            | some c2 =>
              have hs := findChild_size _ _ _ h2
              simp only
              by_cases hn : n = obj.size
              · rw [hn]
              · rw [key n (some c2) slot cs (by omega) (by simp only [ptrSize]; omega),
                  ih obj.size (by omega) (some c2) slot cs (by simpa [ptrSize] using hs)]
                rfl
          rw [e1, e2]
        · rfl

theorem makeConnections_of_not_dual (obj : QObject) (slot : Nat) (conns : List Connection)
    (h : qobject_cast .FrogPilotDualParamControl obj = false) :
    makeConnections (some obj) slot conns = conns ++ leafWiring obj slot := by
  simp only [makeConnections, ptrSize, makeConnectionsFuel, h, Bool.false_eq_true, if_false]
  obtain ⟨i, c, n, cs⟩ := obj
  simp only [connectIfCast, leafWiring, qobject_cast_mk, connect]
  cases c <;> simp [QClass.inherits, QClass.inheritsWithin, QClass.base]

theorem not_dual_of_cast {t : QClass} (obj : QObject) (ht : t ≠ .QObject ∧ t ≠ .QWidget ∧
    t ≠ .QFrame ∧ t ≠ .FrogPilotDualParamControl) (h : qobject_cast t obj = true) :
    qobject_cast .FrogPilotDualParamControl obj = false := by
  obtain ⟨i, c, n, cs⟩ := obj
  rw [qobject_cast_mk] at h ⊢
  obtain ⟨h1, h2, h3, h4⟩ := ht
  revert h h1 h2 h3 h4
  cases c <;> cases t <;> decide

/-- What `makeConnections` attaches for every object that is not a dual control and
every change signal the object emits: the slot is attached to the signal once,
except that `toggleFlipped` of a `ParamControl` (so also of a
`FrogPilotButtonToggleControl` and a `FrogPilotParamManageControl`) gets it twice. -/
theorem makeConnections_attachments (obj : QObject) (slot : Nat) (sig : Signal)
    (hd : qobject_cast .FrogPilotDualParamControl obj = false)
    (hs : emitsSignal obj sig = true) :
    invocations (makeConnections (some obj) slot []) obj.id sig slot =
      if sig = .ToggleControl_toggleFlipped ∧ qobject_cast .ParamControl obj = true
      then 2 else 1 := by
  rw [makeConnections_of_not_dual _ _ _ hd]
  obtain ⟨i, c, n, cs⟩ := obj
  simp only [emitsSignal, QObject.cls] at hs
  simp only [leafWiring, qobject_cast_mk, invocations, emit, QObject.id]
  revert hs
  cases c <;> cases sig <;>
    simp [QClass.inherits, QClass.inheritsWithin, QClass.base, Signal.owner]

/-- C1, at the objects on which the code departs from the claim: for every
`ParamControl` (an object of that class or of a class derived from it),
`makeConnections(control, slot)` on a fresh connection table attaches `slot` to
`toggleFlipped` twice, so one emission of `toggleFlipped` invokes `slot` two
times, not once. -/
theorem makeConnections_toggleFlipped_twice (obj : QObject) (slot : Nat)
    (h : qobject_cast .ParamControl obj = true) :
    emit (makeConnections (some obj) slot []) obj.id .ToggleControl_toggleFlipped = [slot, slot] ∧
      invocations (makeConnections (some obj) slot []) obj.id .ToggleControl_toggleFlipped slot
        = 2 := by
  have hd := not_dual_of_cast obj (by decide) h
  rw [makeConnections_of_not_dual _ _ _ hd]
  obtain ⟨i, c, n, cs⟩ := obj
  rw [qobject_cast_mk] at h
  simp only [leafWiring, qobject_cast_mk, invocations, emit, QObject.id]
  revert h
  cases c <;> simp [QClass.inherits, QClass.inheritsWithin, QClass.base]

/-- C1, the failing input: a plain `ParamControl`. -/
theorem makeConnections_toggleFlipped_twice_witness :
    qobject_cast .ParamControl (QObject.mk 1 .ParamControl "" []) = true ∧
      emit (makeConnections (some (QObject.mk 1 .ParamControl "" [])) 7 [])
          (QObject.mk 1 .ParamControl "" []).id .ToggleControl_toggleFlipped = [7, 7] ∧
      invocations (makeConnections (some (QObject.mk 1 .ParamControl "" [])) 7 [])
          (QObject.mk 1 .ParamControl "" []).id .ToggleControl_toggleFlipped 7 = 2 :=
  ⟨by decide, makeConnections_toggleFlipped_twice (QObject.mk 1 .ParamControl "" []) 7 (by decide)⟩

theorem objectName_setObjectName (o : QObject) (n : String) :
    (o.setObjectName n).objectName = n := by
  cases o
  rfl

theorem id_setObjectName (o : QObject) (n : String) : (o.setObjectName n).id = o.id := by
  cases o
  rfl

theorem qobject_cast_setObjectName (t : QClass) (o : QObject) (n : String) :
    qobject_cast t (o.setObjectName n) = qobject_cast t o := by
  cases o
  rfl

theorem objectName_mk (i : Nat) (c : QClass) (n : String) (cs : List QObject) :
    (QObject.mk i c n cs).objectName = n := rfl

theorem findChild_control1 (id layoutId : Nat) (c1 c2 : QObject) :
    findChild "control1" (FrogPilotDualParamControl.new id layoutId c1 c2) =
      some (c1.setObjectName "control1") := by
  simp [FrogPilotDualParamControl.new, findChild, findDirectChild, objectName_setObjectName,
    objectName_mk]

theorem findChild_control2 (id layoutId : Nat) (c1 c2 : QObject) :
    findChild "control2" (FrogPilotDualParamControl.new id layoutId c1 c2) =
      some (c2.setObjectName "control2") := by
  simp [FrogPilotDualParamControl.new, findChild, findDirectChild, objectName_setObjectName,
    objectName_mk]

theorem makeConnections_dual_unfold (id layoutId : Nat) (c1 c2 : QObject) (slot : Nat)
    (conns : List Connection) :
    makeConnections (some (FrogPilotDualParamControl.new id layoutId c1 c2)) slot conns =
      makeConnections (some (c2.setObjectName "control2")) slot
        (makeConnections (some (c1.setObjectName "control1")) slot conns) := by
  have hsz1 := findChild_size _ _ _ (findChild_control1 id layoutId c1 c2)
  have hsz2 := findChild_size _ _ _ (findChild_control2 id layoutId c1 c2)
  rw [← makeConnectionsFuel_stable _ (some (c2.setObjectName "control2")) slot _
      (show ptrSize (some (c2.setObjectName "control2")) <
        (FrogPilotDualParamControl.new id layoutId c1 c2).size from hsz2),
    ← makeConnectionsFuel_stable _ (some (c1.setObjectName "control1")) slot _
      (show ptrSize (some (c1.setObjectName "control1")) <
        (FrogPilotDualParamControl.new id layoutId c1 c2).size from hsz1)]
  simp only [makeConnections, ptrSize, makeConnectionsFuel]
  rw [findChild_control1, findChild_control2]
  have hc1 : qobject_cast .ButtonParamControl
      (FrogPilotDualParamControl.new id layoutId c1 c2) = false := rfl
  have hc2 : qobject_cast .FrogPilotButtonsControl
      (FrogPilotDualParamControl.new id layoutId c1 c2) = false := rfl
  have hc3 : qobject_cast .FrogPilotButtonToggleControl
      (FrogPilotDualParamControl.new id layoutId c1 c2) = false := rfl
  have hdual : qobject_cast .FrogPilotDualParamControl
      (FrogPilotDualParamControl.new id layoutId c1 c2) = true := rfl
  simp only [connectIfCast, hc1, hc2, hc3, hdual, Bool.false_eq_true, if_false, if_true]

theorem inherits_valueControl (c : QClass) (h : c.inherits .FrogPilotParamValueControl = true) :
    c = .FrogPilotParamValueControl ∨ c = .FrogPilotParamValueButtonControl := by
  revert h
  cases c <;> decide

/-- C2: for a dual control built by its constructor from two controls that are
`FrogPilotParamValueControl`s (distinct objects, and distinct from the dual
control), `makeConnections(dual, slot)` is the wiring of the child named
"control1" followed by the wiring of the child named "control2" and nothing
else. On a fresh connection table each child's `valueChanged` then invokes
`slot` exactly once, and no connection has the dual control as its sender. -/
theorem makeConnections_dual (id layoutId : Nat) (c1 c2 : QObject) (slot : Nat)
    (h1 : qobject_cast .FrogPilotParamValueControl c1 = true)
    (h2 : qobject_cast .FrogPilotParamValueControl c2 = true)
    (h12 : c1.id ≠ c2.id) (hd1 : c1.id ≠ id) (hd2 : c2.id ≠ id) :
    makeConnections (some (FrogPilotDualParamControl.new id layoutId c1 c2)) slot [] =
        makeConnections (some (c2.setObjectName "control2")) slot
          (makeConnections (some (c1.setObjectName "control1")) slot []) ∧
      emit (makeConnections (some (FrogPilotDualParamControl.new id layoutId c1 c2)) slot [])
        c1.id .FrogPilotParamValueControl_valueChanged = [slot] ∧
      emit (makeConnections (some (FrogPilotDualParamControl.new id layoutId c1 c2)) slot [])
        c2.id .FrogPilotParamValueControl_valueChanged = [slot] ∧
      invocations (makeConnections (some (FrogPilotDualParamControl.new id layoutId c1 c2)) slot [])
        c1.id .FrogPilotParamValueControl_valueChanged slot = 1 ∧
      invocations (makeConnections (some (FrogPilotDualParamControl.new id layoutId c1 c2)) slot [])
        c2.id .FrogPilotParamValueControl_valueChanged slot = 1 ∧
      ∀ x ∈ makeConnections (some (FrogPilotDualParamControl.new id layoutId c1 c2)) slot [],
        x.sender ≠ id := by
  have hn1 : qobject_cast .FrogPilotDualParamControl (c1.setObjectName "control1") = false := by
    rw [qobject_cast_setObjectName]
    exact not_dual_of_cast c1 (by decide) h1
  have hn2 : qobject_cast .FrogPilotDualParamControl (c2.setObjectName "control2") = false := by
    rw [qobject_cast_setObjectName]
    exact not_dual_of_cast c2 (by decide) h2
  rw [makeConnections_dual_unfold, makeConnections_of_not_dual _ _ _ hn2,
    makeConnections_of_not_dual _ _ _ hn1]
  obtain ⟨i1, k1, n1, cs1⟩ := c1
  obtain ⟨i2, k2, n2, cs2⟩ := c2
  simp only [QObject.id] at h12 hd1 hd2
  rw [qobject_cast_mk] at h1 h2
  simp only [leafWiring, QObject.setObjectName, qobject_cast_mk, invocations, emit, QObject.id]
  have h21 : i2 ≠ i1 := fun h => h12 h.symm
  rcases inherits_valueControl k1 h1 with rfl | rfl <;>
    rcases inherits_valueControl k2 h2 with rfl | rfl <;>
    simp [QClass.inherits, QClass.inheritsWithin, QClass.base, h12, h21, hd1, hd2]

/-- C2 at a concrete dual control: children 1 and 2, the dual control 0. -/
theorem makeConnections_dual_witness :
    emit (makeConnections (some (FrogPilotDualParamControl.new 0 9
        (QObject.mk 1 .FrogPilotParamValueControl "" [])
        (QObject.mk 2 .FrogPilotParamValueButtonControl "" []))) 7 [])
      1 .FrogPilotParamValueControl_valueChanged = [7] :=
  (makeConnections_dual 0 9 (QObject.mk 1 .FrogPilotParamValueControl "" [])
    (QObject.mk 2 .FrogPilotParamValueButtonControl "" []) 7 (by decide) (by decide)
    (by decide) (by decide) (by decide)).2.1

/-! ## Theorems: the numeric stepper -/

open FrogPilotParamValueControl

theorem clog_ratCast (q : ℚ) (hq : 0 < q) : Int.clog 10 (q : ℝ) = Int.clog 10 q := by
  have hq2 : (0 : ℝ) < (q : ℝ) := by exact_mod_cast hq
  refine eq_of_forall_ge_iff (fun x => ?_)
  rw [← Int.le_zpow_iff_clog_le (by norm_num) hq2, ← Int.le_zpow_iff_clog_le (by norm_num) hq]
  rw [show (((10 : ℕ) : ℝ)) ^ x = ((((10 : ℕ) : ℚ) ^ x : ℚ) : ℝ) by push_cast; rfl, Rat.cast_le]

/-- The model of `decimalPlaces` is the expression of the constructor,
`std::ceil(-std::log10(interval))`, over the reals. -/
theorem decimalPlacesOf_eq_ceil (interval : ℚ) (h : 0 < interval) :
    decimalPlacesOf interval = ⌈-Real.logb 10 (interval : ℝ)⌉ := by
  have h1 : (0 : ℝ) ≤ ((interval⁻¹ : ℚ) : ℝ) := by
    have : (0 : ℚ) ≤ interval⁻¹ := inv_nonneg.2 h.le
    exact_mod_cast this
  have h2 := Real.ceil_logb_natCast (b := 10) h1
  rw [clog_ratCast _ (inv_pos.2 h)] at h2
  rw [decimalPlacesOf, ← h2]
  congr 1
  push_cast
  rw [Real.logb_inv]

theorem truncQ_of_nonneg_lt_one {q : ℚ} (h0 : 0 ≤ q) (h1 : q < 1) : truncQ q = 0 := by
  simp only [truncQ, h0, if_true]
  rw [Int.floor_eq_iff]; constructor <;> simp [h0, h1]

theorem fmod_of_nonneg_lt {x y : ℚ} (h0 : 0 ≤ x) (h1 : x < y) : fmod x y = x := by
  have hy : 0 < y := lt_of_le_of_lt h0 h1
  have : truncQ (x / y) = 0 := truncQ_of_nonneg_lt_one (div_nonneg h0 hy.le) ((div_lt_one hy).2 h1)
  simp [fmod, this]

theorem stdRound_intCast (n : ℤ) : stdRound (n : ℚ) = n := by
  unfold stdRound
  split_ifs with h
  · rw [Int.floor_eq_iff]; constructor <;> norm_num
  · rw [Int.ceil_eq_iff]; constructor <;> norm_num

theorem stdRound_mono {x y : ℚ} (h : x ≤ y) : stdRound x ≤ stdRound y := by
  unfold stdRound
  split_ifs with hx hy hy
  · exact Int.floor_mono (by linarith)
  · linarith
  · have h1 : ⌈x - 1 / 2⌉ ≤ 0 := Int.ceil_le.2 (by push_cast; linarith)
    have h2 : (0 : ℤ) ≤ ⌊y + 1 / 2⌋ := Int.le_floor.2 (by push_cast; linarith)
    exact h1.trans h2
  · exact Int.ceil_mono (by linarith)

theorem stdRound_half_add (n : ℤ) (hn : 0 ≤ n) : stdRound ((n : ℚ) + 1 / 2) = n + 1 := by
  unfold stdRound
  have : (0 : ℚ) ≤ (n : ℚ) + 1 / 2 := by
    have : (0 : ℚ) ≤ n := by exact_mod_cast hn
    linarith
  rw [if_pos this, Int.floor_eq_iff]
  constructor <;> push_cast <;> linarith



theorem sameConfig_refl (c : FrogPilotParamValueControl) : SameConfig c c :=
  ⟨rfl, rfl, rfl, rfl, rfl, rfl, rfl⟩

theorem sameConfig_trans {a b c : FrogPilotParamValueControl} (h1 : SameConfig a b)
    (h2 : SameConfig b c) : SameConfig a c := by
  obtain ⟨a1, a2, a3, a4, a5, a6, a7⟩ := h1
  obtain ⟨b1, b2, b3, b4, b5, b6, b7⟩ := h2
  exact ⟨b1.trans a1, b2.trans a2, b3.trans a3, b4.trans a4, b5.trans a5, b6.trans a6, b7.trans a7⟩

theorem sameConfig_updateValueDisplay (c : FrogPilotParamValueControl) :
    SameConfig c (updateValueDisplay c) := by
  unfold updateValueDisplay
  split_ifs <;> exact ⟨rfl, rfl, rfl, rfl, rfl, rfl, rfl⟩

theorem sameConfig_adjustValue (c : FrogPilotParamValueControl) (delta : ℚ) :
    SameConfig c (adjustValue c delta) := by
  unfold adjustValue
  exact sameConfig_trans ⟨rfl, rfl, rfl, rfl, rfl, rfl, rfl⟩ (sameConfig_updateValueDisplay _)

theorem sameConfig_releaseCallback (lastValue : ℚ) (c : FrogPilotParamValueControl) :
    SameConfig c (releaseCallback lastValue c) := by
  simp only [releaseCallback]
  split_ifs <;> exact ⟨rfl, rfl, rfl, rfl, rfl, rfl, rfl⟩

theorem sameConfig_stepperStep (c : FrogPilotParamValueControl) (e : StepperEvent) :
    SameConfig c (stepperStep c e) := by
  cases e with
  | incrementPressed => exact sameConfig_adjustValue c _
  | decrementPressed => exact sameConfig_adjustValue c _
  | buttonReleased => exact ⟨rfl, rfl, rfl, rfl, rfl, rfl, rfl⟩
  | timerFired i =>
    simp only [stepperStep]
    cases c.timers[i]? with
    | none => exact sameConfig_refl c
    | some lv =>
      exact sameConfig_trans ⟨rfl, rfl, rfl, rfl, rfl, rfl, rfl⟩ (sameConfig_releaseCallback lv _)
  | shown =>
    exact sameConfig_trans ⟨rfl, rfl, rfl, rfl, rfl, rfl, rfl⟩ (sameConfig_updateValueDisplay _)

theorem sameConfig_stepperRun (c : FrogPilotParamValueControl) (events : List StepperEvent) :
    SameConfig c (stepperRun c events) := by
  induction events generalizing c with
  | nil => exact sameConfig_refl c
  | cons e es ih =>
    exact sameConfig_trans (sameConfig_stepperStep c e) (ih (stepperStep c e))

theorem stepperRun_snoc (c : FrogPilotParamValueControl) (events : List StepperEvent)
    (e : StepperEvent) : stepperRun c (events ++ [e]) = stepperStep (stepperRun c events) e := by
  simp [stepperRun, List.foldl_append]

theorem value_updateValueDisplay (c : FrogPilotParamValueControl) :
    (updateValueDisplay c).value = c.value := by
  unfold updateValueDisplay
  split_ifs <;> rfl

theorem value_adjustValue (c : FrogPilotParamValueControl) (delta : ℚ) :
    (adjustValue c delta).value =
      (stdRound (qBound c.minValue (c.value + (accelerate c delta).1) c.maxValue * c.factor) : ℚ)
        / c.factor := by
  unfold adjustValue
  rw [value_updateValueDisplay]

theorem value_press (c : FrogPilotParamValueControl) (e : StepperEvent) (h : e.isPress = true) :
    ∃ delta, (stepperStep c e).value =
      (stdRound (qBound c.minValue (c.value + (accelerate c delta).1) c.maxValue * c.factor) : ℚ)
        / c.factor := by
  cases e with
  | incrementPressed => exact ⟨c.interval, value_adjustValue c _⟩
  | decrementPressed => exact ⟨-c.interval, value_adjustValue c _⟩
  | buttonReleased => simp [StepperEvent.isPress] at h
  | timerFired i => simp [StepperEvent.isPress] at h
  | shown => simp [StepperEvent.isPress] at h

theorem qBound_mem {mn mx : ℚ} (h : mn ≤ mx) (v : ℚ) : mn ≤ qBound mn v mx ∧ qBound mn v mx ≤ mx := by
  unfold qBound
  exact ⟨le_max_left _ _, max_le h (min_le_left _ _)⟩

theorem factor_pos (interval : ℚ) : (0 : ℚ) < (10 : ℚ) ^ decimalPlacesOf interval :=
  zpow_pos (by norm_num) _

theorem rounded_within {mn mx f v : ℚ} (hf : 0 < f)
    (hmin : mn ≤ (stdRound (mn * f) : ℚ) / f) (hmax : (stdRound (mx * f) : ℚ) / f ≤ mx)
    (h1 : mn ≤ v) (h2 : v ≤ mx) :
    mn ≤ (stdRound (v * f) : ℚ) / f ∧ (stdRound (v * f) : ℚ) / f ≤ mx := by
  have r1 : stdRound (mn * f) ≤ stdRound (v * f) :=
    stdRound_mono (mul_le_mul_of_nonneg_right h1 hf.le)
  have r2 : stdRound (v * f) ≤ stdRound (mx * f) :=
    stdRound_mono (mul_le_mul_of_nonneg_right h2 hf.le)
  have q1 : (stdRound (mn * f) : ℚ) / f ≤ (stdRound (v * f) : ℚ) / f :=
    div_le_div_of_nonneg_right (by exact_mod_cast r1) hf.le
  have q2 : (stdRound (v * f) : ℚ) / f ≤ (stdRound (mx * f) : ℚ) / f :=
    div_le_div_of_nonneg_right (by exact_mod_cast r2) hf.le
  exact ⟨hmin.trans q1, q2.trans hmax⟩

theorem accelerate_fst_of_not_previousDelta (c : FrogPilotParamValueControl) (delta : ℚ)
    (h : c.previousDelta = false) : (accelerate c delta).1 = delta := by
  simp only [accelerate, h, Bool.false_eq_true, if_false]
  split_ifs <;> rfl

/-- C4, amended: for a stepper built by the constructor with `minValue ≤ maxValue`
and `interval > 0`, the value held after a press is within
`[minValue, maxValue]` for every starting value and every sequence of events
that ends in a press if and only if rounding the bounds to the precision does
not leave the range: `minValue ≤ round(minValue * factor) / factor` and
`round(maxValue * factor) / factor ≤ maxValue`, where
`factor = 10 ^ decimalPlaces`. -/
theorem press_value_within_bounds (param : String) (minValue maxValue interval : ℚ)
    (hle : minValue ≤ maxValue) (hint : 0 < interval) :
    (minValue ≤ (stdRound (minValue * (10 : ℚ) ^ decimalPlacesOf interval) : ℚ)
          / (10 : ℚ) ^ decimalPlacesOf interval ∧
        (stdRound (maxValue * (10 : ℚ) ^ decimalPlacesOf interval) : ℚ)
          / (10 : ℚ) ^ decimalPlacesOf interval ≤ maxValue) ↔
      ∀ (instantUpdate previousDelta : Bool) (value : ℚ) (params : Params)
        (events : List StepperEvent) (e : StepperEvent), e.isPress = true →
        minValue ≤ (stepperRun (new param minValue maxValue interval instantUpdate previousDelta
            value params) (events ++ [e])).value ∧
          (stepperRun (new param minValue maxValue interval instantUpdate previousDelta
            value params) (events ++ [e])).value ≤ maxValue := by
  constructor
  · rintro ⟨hmin, hmax⟩ instantUpdate previousDelta value params events e hpress
    rw [stepperRun_snoc]
    obtain ⟨_, h2, h3, _, _, h6, _⟩ := sameConfig_stepperRun
      (new param minValue maxValue interval instantUpdate previousDelta value params) events
    obtain ⟨delta, hv⟩ := value_press (stepperRun
      (new param minValue maxValue interval instantUpdate previousDelta value params) events)
      e hpress
    rw [hv, h2, h3, h6]
    simp only [new]
    exact rounded_within (factor_pos interval) hmin hmax (qBound_mem hle _).1 (qBound_mem hle _).2
  · intro h
    constructor
    · have hdown := (h false false minValue emptyParams [] .decrementPressed rfl).1
      have hrun : stepperRun (new param minValue maxValue interval false false minValue
          emptyParams) ([] ++ [.decrementPressed]) =
          adjustValue (new param minValue maxValue interval false false minValue emptyParams)
            (-interval) := rfl
      rw [hrun, value_adjustValue, accelerate_fst_of_not_previousDelta _ _ rfl] at hdown
      simp only [new] at hdown
      have hq : qBound minValue (minValue + -interval) maxValue = minValue := by
        unfold qBound
        rw [min_eq_right (by linarith), max_eq_left (by linarith)]
      rwa [hq] at hdown
    · have hup := (h false false maxValue emptyParams [] .incrementPressed rfl).2
      have hrun : stepperRun (new param minValue maxValue interval false false maxValue
          emptyParams) ([] ++ [.incrementPressed]) =
          adjustValue (new param minValue maxValue interval false false maxValue emptyParams)
            interval := rfl
      rw [hrun, value_adjustValue, accelerate_fst_of_not_previousDelta _ _ rfl] at hup
      simp only [new] at hup
      have hq : qBound minValue (maxValue + interval) maxValue = maxValue := by
        unfold qBound
        rw [min_eq_left (by linarith), max_eq_right hle]
      rwa [hq] at hup

/-- C5: for every stepper built by the constructor with `interval > 0`, whatever
its bounds, starting value and acceleration state, and every sequence of events
that ends in a press, the value held after that press is quantized:
`value * factor` is an integer and `value = round(value * factor) / factor`,
where `factor = 10 ^ decimalPlaces` and `decimalPlaces = ceil(-log10(interval))`. -/
theorem press_value_quantized (param : String) (minValue maxValue interval : ℚ)
    (instantUpdate previousDelta : Bool) (value : ℚ) (params : Params)
    (events : List StepperEvent) (e : StepperEvent)
    (hpress : e.isPress = true) (_hint : 0 < interval) :
    (∃ n : ℤ, (stepperRun (new param minValue maxValue interval instantUpdate previousDelta
        value params) (events ++ [e])).value * (10 : ℚ) ^ decimalPlacesOf interval = n) ∧
      (stepperRun (new param minValue maxValue interval instantUpdate previousDelta
        value params) (events ++ [e])).value =
        (stdRound ((stepperRun (new param minValue maxValue interval instantUpdate previousDelta
          value params) (events ++ [e])).value * (10 : ℚ) ^ decimalPlacesOf interval) : ℚ)
          / (10 : ℚ) ^ decimalPlacesOf interval := by
  rw [stepperRun_snoc]
  obtain ⟨_, _, _, _, _, h6, _⟩ := sameConfig_stepperRun
    (new param minValue maxValue interval instantUpdate previousDelta value params) events
  obtain ⟨delta, hv⟩ := value_press (stepperRun
    (new param minValue maxValue interval instantUpdate previousDelta value params) events) e hpress
  rw [hv, h6]
  simp only [new]
  have hf : ((10 : ℚ) ^ decimalPlacesOf interval) ≠ 0 := (factor_pos interval).ne'
  have key : ∀ r : ℤ, (r : ℚ) / (10 : ℚ) ^ decimalPlacesOf interval *
      (10 : ℚ) ^ decimalPlacesOf interval = r := fun r => div_mul_cancel₀ _ hf
  refine ⟨⟨_, key _⟩, ?_⟩
  rw [key, stdRound_intCast]

theorem releaseCallback_of_eq (c : FrogPilotParamValueControl) :
    (releaseCallback c.value c).params = c.params.putFloat c.key c.value ∧
      (releaseCallback c.value c).previousDelta = false ∧
      (releaseCallback c.value c).value = c.value ∧
      (releaseCallback c.value c).timers = c.timers ∧
      (releaseCallback c.value c).valueChangedLog =
        if c.instantUpdate = true then c.valueChangedLog else c.valueChangedLog ++ [c.value] := by
  simp only [releaseCallback]
  by_cases h : c.instantUpdate = true <;> simp [h]

theorem releaseCallback_of_ne (lastValue : ℚ) (c : FrogPilotParamValueControl)
    (h : lastValue ≠ c.value) : releaseCallback lastValue c = c := by
  simp [releaseCallback, h]

theorem previousDelta_updateValueDisplay (c : FrogPilotParamValueControl) :
    (updateValueDisplay c).previousDelta = c.previousDelta := by
  unfold updateValueDisplay
  split_ifs <;> rfl

theorem params_updateValueDisplay (c : FrogPilotParamValueControl) :
    (updateValueDisplay c).params = c.params := by
  unfold updateValueDisplay
  split_ifs <;> rfl

theorem timers_updateValueDisplay (c : FrogPilotParamValueControl) :
    (updateValueDisplay c).timers = c.timers := by
  unfold updateValueDisplay
  split_ifs <;> rfl

theorem params_adjustValue (c : FrogPilotParamValueControl) (delta : ℚ) :
    (adjustValue c delta).params = c.params := by
  unfold adjustValue
  rw [params_updateValueDisplay]

theorem timers_adjustValue (c : FrogPilotParamValueControl) (delta : ℚ) :
    (adjustValue c delta).timers = c.timers := by
  unfold adjustValue
  rw [timers_updateValueDisplay]

theorem params_press (c : FrogPilotParamValueControl) (e : StepperEvent) (h : e.isPress = true) :
    (stepperStep c e).params = c.params ∧ (stepperStep c e).timers = c.timers ∧
      (stepperStep c e).key = c.key := by
  cases e with
  | incrementPressed =>
    exact ⟨params_adjustValue c _, timers_adjustValue c _, (sameConfig_adjustValue c _).1⟩
  | decrementPressed =>
    exact ⟨params_adjustValue c _, timers_adjustValue c _, (sameConfig_adjustValue c _).1⟩
  | buttonReleased => simp [StepperEvent.isPress] at h
  | timerFired i => simp [StepperEvent.isPress] at h
  | shown => simp [StepperEvent.isPress] at h

theorem stepperStep_timerFired (s : FrogPilotParamValueControl) (i : ℕ) (lastValue : ℚ)
    (h : s.timers[i]? = some lastValue) :
    stepperStep s (.timerFired i) =
      releaseCallback lastValue (dropTimer s i) := by
  simp [stepperStep, h]

theorem timerFired_spec (s : FrogPilotParamValueControl) (i : ℕ) (lastValue : ℚ)
    (h : s.timers[i]? = some lastValue) :
    (lastValue = s.value →
        (stepperStep s (.timerFired i)).params = s.params.putFloat s.key s.value) ∧
      (lastValue ≠ s.value → (stepperStep s (.timerFired i)).params = s.params) ∧
      (stepperStep s (.timerFired i)).value = s.value ∧
      (stepperStep s (.timerFired i)).timers = s.timers.eraseIdx i := by
  rw [stepperStep_timerFired s i lastValue h]
  refine ⟨?_, ?_, ?_, ?_⟩
  · intro heq
    subst heq
    exact (releaseCallback_of_eq (dropTimer s i)).1
  · intro hne
    rw [releaseCallback_of_ne lastValue (dropTimer s i) hne]
    rfl
  · by_cases heq : lastValue = s.value
    · subst heq
      exact (releaseCallback_of_eq (dropTimer s i)).2.2.1
    · rw [releaseCallback_of_ne lastValue (dropTimer s i) heq]
      rfl
  · by_cases heq : lastValue = s.value
    · subst heq
      exact (releaseCallback_of_eq (dropTimer s i)).2.2.2.1
    · rw [releaseCallback_of_ne lastValue (dropTimer s i) heq]
      rfl

/-- C7, amended: for the sequence press, release, second press, expiry of the
timer of that release: when the second press changed the value the callback
writes nothing to the store; when it left the value as it was (a press
clamped at a bound) the callback writes the current, final value. In either
case the timer is gone and none is added. In general the callback of a pending
timer writes the store if and only if the value it captured is the current
value, what it writes is the current value under the key of the stepper, and
it only removes its own timer. -/
theorem debounce_commit_rule (c : FrogPilotParamValueControl) (e1 e2 : StepperEvent)
    (h1 : e1.isPress = true) (h2 : e2.isPress = true) :
    ((stepperRun c [e1, .buttonReleased, e2]).value ≠ (stepperRun c [e1]).value →
        (stepperRun c [e1, .buttonReleased, e2, .timerFired c.timers.length]).params = c.params) ∧
      ((stepperRun c [e1, .buttonReleased, e2]).value = (stepperRun c [e1]).value →
        (stepperRun c [e1, .buttonReleased, e2, .timerFired c.timers.length]).params =
          c.params.putFloat c.key
            (stepperRun c [e1, .buttonReleased, e2, .timerFired c.timers.length]).value) ∧
      (stepperRun c [e1, .buttonReleased, e2, .timerFired c.timers.length]).timers = c.timers ∧
      (∀ (s : FrogPilotParamValueControl) (i : ℕ) (lastValue : ℚ),
        s.timers[i]? = some lastValue →
          (lastValue = s.value →
            (stepperStep s (.timerFired i)).params = s.params.putFloat s.key s.value) ∧
          (lastValue ≠ s.value → (stepperStep s (.timerFired i)).params = s.params) ∧
          (stepperStep s (.timerFired i)).value = s.value ∧
          (stepperStep s (.timerFired i)).timers = s.timers.eraseIdx i) := by
  obtain ⟨p1, t1, k1⟩ := params_press c e1 h1
  obtain ⟨p3, t3, k3⟩ := params_press (stepperStep (stepperStep c e1) .buttonReleased) e2 h2
  have hrun3 : stepperRun c [e1, .buttonReleased, e2] =
      stepperStep (stepperStep (stepperStep c e1) .buttonReleased) e2 := rfl
  have hrun1 : stepperRun c [e1] = stepperStep c e1 := rfl
  have hrun4 : stepperRun c [e1, .buttonReleased, e2, .timerFired c.timers.length] =
      stepperStep (stepperStep (stepperStep (stepperStep c e1) .buttonReleased) e2)
        (.timerFired c.timers.length) := rfl
  have htimers : (stepperStep (stepperStep (stepperStep c e1) .buttonReleased) e2).timers =
      c.timers ++ [(stepperStep c e1).value] := by
    rw [t3]
    show (stepperStep c e1).timers ++ [(stepperStep c e1).value] = _
    rw [t1]
  have hparams : (stepperStep (stepperStep (stepperStep c e1) .buttonReleased) e2).params =
      c.params := by
    rw [p3]
    exact p1
  have hkey : (stepperStep (stepperStep (stepperStep c e1) .buttonReleased) e2).key = c.key := by
    rw [k3]
    exact k1
  rw [hrun3, hrun1, hrun4]
  generalize stepperStep (stepperStep (stepperStep c e1) .buttonReleased) e2 = s3 at *
  generalize (stepperStep c e1).value = v1 at *
  have hget : s3.timers[c.timers.length]? = some v1 := by
    rw [htimers]; simp
  obtain ⟨f1, f2, f3, f4⟩ := timerFired_spec s3 c.timers.length v1 hget
  refine ⟨?_, ?_, ?_, fun s i lastValue hs => timerFired_spec s i lastValue hs⟩
  · intro hne
    rw [f2 (fun h => hne h.symm), hparams]
  · intro heq
    rw [f1 heq.symm, f3, hparams, hkey]
  · rw [f4, htimers]
    simp [List.eraseIdx_append_of_length_le]

/-- C8, amended: in immediate mode (`instantUpdate = true`) every `adjustValue`
emits `valueChanged` with the new value at once and writes nothing to the
store, nor does it schedule a timer; the store is written by the callback of a
release (when the value is still the one captured), which in this mode emits
nothing. -/
theorem adjustValue_instantUpdate (c : FrogPilotParamValueControl) (delta : ℚ)
    (h : c.instantUpdate = true) :
    (adjustValue c delta).valueChangedLog = c.valueChangedLog ++ [(adjustValue c delta).value] ∧
      (adjustValue c delta).params = c.params ∧
      (adjustValue c delta).timers = c.timers ∧
      (releaseCallback c.value c).params = c.params.putFloat c.key c.value ∧
      (releaseCallback c.value c).valueChangedLog = c.valueChangedLog := by
  refine ⟨?_, params_adjustValue c delta, timers_adjustValue c delta,
    (releaseCallback_of_eq c).1, ?_⟩
  · simp [adjustValue, updateValueDisplay, h]
  · rw [(releaseCallback_of_eq c).2.2.2.2, if_pos h]

/-! ### The stepper at concrete inputs -/

theorem decimalPlacesOf_one : decimalPlacesOf 1 = 0 := by
  simp [decimalPlacesOf]

theorem fmod_two_five : fmod 2 5 = 2 := fmod_of_nonneg_lt (by norm_num) (by norm_num)

theorem stdRound_five_halves : stdRound (5 / 2) = 3 := by
  have h := stdRound_half_add 2 (by norm_num)
  norm_num at h
  exact h

theorem stdRound_two : stdRound 2 = 2 := by
  have h := stdRound_intCast 2
  norm_num at h
  exact h

theorem stdRound_three : stdRound 3 = 3 := by
  have h := stdRound_intCast 3
  norm_num at h
  exact h

theorem value_above_maxValue_example :
    (stepperRun (new "k" 0 (5 / 2) 1 false false 2 emptyParams) [.incrementPressed]).value
      = 3 := by
  show (adjustValue (new "k" 0 (5 / 2) 1 false false 2 emptyParams) 1).value = 3
  rw [value_adjustValue]
  simp only [new, accelerate, decimalPlacesOf_one, zpow_zero, mul_one, div_one]
  norm_num [qBound, stdRound_five_halves, fmod_two_five]

/-- C4, counterexample: bounds `[0, 5/2]`, `interval = 1` (so `factor = 1`), value 2.
One increment press clamps `3` to `5/2` and rounds it to `3`, above `maxValue`. -/
theorem press_value_above_maxValue :
    ¬ ((new "k" 0 (5 / 2) 1 false false 2 emptyParams).minValue ≤
          (stepperRun (new "k" 0 (5 / 2) 1 false false 2 emptyParams) [.incrementPressed]).value ∧
        (stepperRun (new "k" 0 (5 / 2) 1 false false 2 emptyParams) [.incrementPressed]).value ≤
          (new "k" 0 (5 / 2) 1 false false 2 emptyParams).maxValue) := by
  rw [value_above_maxValue_example]
  norm_num [new]

theorem stdRound_zero : stdRound 0 = 0 := by
  have h := stdRound_intCast 0
  norm_num at h
  exact h

theorem stdRound_twelve_fifths : stdRound (12 / 5) = 2 := by
  unfold stdRound
  rw [if_pos (by norm_num), Int.floor_eq_iff]
  constructor <;> norm_num

/-- C4, amended, at bounds `[0, 12/5]`, `interval = 1` (so `factor = 1`), value 2 and
one increment press: the upper bound is off the grid but rounds down, to 2,
and the press, clamped to `12/5`, gives 2. -/
theorem press_value_within_bounds_witness :
    (0 : ℚ) ≤ (stepperRun (new "k" 0 (12 / 5) 1 false false 2 emptyParams)
        ([] ++ [.incrementPressed])).value ∧
      (stepperRun (new "k" 0 (12 / 5) 1 false false 2 emptyParams)
        ([] ++ [.incrementPressed])).value ≤ 12 / 5 :=
  (press_value_within_bounds "k" 0 (12 / 5) 1 (by norm_num) (by norm_num)).1
    ⟨by simp [stdRound_zero], by
      simp only [decimalPlacesOf_one, zpow_zero, mul_one, div_one, stdRound_twelve_fifths]
      norm_num⟩
    false false 2 emptyParams [] .incrementPressed rfl

/-- C5 at bounds `[0, 5/2]`, `interval = 1`, value 2 and one increment press. -/
theorem press_value_quantized_witness :
    (∃ n : ℤ, (stepperRun (new "k" 0 (5 / 2) 1 false false 2 emptyParams)
        ([] ++ [.incrementPressed])).value * (10 : ℚ) ^ decimalPlacesOf 1 = n) ∧
      (stepperRun (new "k" 0 (5 / 2) 1 false false 2 emptyParams)
        ([] ++ [.incrementPressed])).value =
        (stdRound ((stepperRun (new "k" 0 (5 / 2) 1 false false 2 emptyParams)
          ([] ++ [.incrementPressed])).value * (10 : ℚ) ^ decimalPlacesOf 1) : ℚ)
          / (10 : ℚ) ^ decimalPlacesOf 1 :=
  press_value_quantized "k" 0 (5 / 2) 1 false false 2 emptyParams [] .incrementPressed rfl
    (by norm_num)

theorem commit_example :
    (stepperRun (new "k" 0 2 1 false false 2 emptyParams)
      [.incrementPressed, .buttonReleased, .incrementPressed, .timerFired 0]).params.writes
      = [("k", ParamValue.float 2)] := by
  have e1 : stepperStep (new "k" 0 2 1 false false 2 emptyParams) .incrementPressed =
      { new "k" 0 2 1 false false 2 emptyParams with value := 2 } := by
    show adjustValue (new "k" 0 2 1 false false 2 emptyParams) 1 = _
    simp only [adjustValue, updateValueDisplay, new, accelerate, decimalPlacesOf_one, zpow_zero,
      mul_one, div_one]
    norm_num [qBound, stdRound_two, fmod_two_five]
  have e3 : stepperStep { new "k" 0 2 1 false false 2 emptyParams with value := 2, timers := [2] }
      .incrementPressed =
      { new "k" 0 2 1 false false 2 emptyParams with value := 2, timers := [2] } := by
    show adjustValue { new "k" 0 2 1 false false 2 emptyParams with value := 2, timers := [2] }
      1 = _
    simp only [adjustValue, updateValueDisplay, new, accelerate, decimalPlacesOf_one, zpow_zero,
      mul_one, div_one]
    norm_num [qBound, stdRound_two, fmod_two_five]
  simp only [stepperRun, List.foldl_cons, List.foldl_nil, e1]
  show (stepperStep (stepperStep
    { new "k" 0 2 1 false false 2 emptyParams with value := 2, timers := [2] }
    .incrementPressed) (.timerFired 0)).params.writes = _
  rw [e3]
  simp [stepperStep, dropTimer, releaseCallback, new, Params.putFloat, emptyParams]

/-- C7, counterexample: bounds `[0, 2]`, `interval = 1`, value 2, no timer pending and
an empty write log. Increment, release, increment (clamped, the value stays 2),
then the timer of the release expires: its callback finds the value it
captured and commits, so the store was written. -/
theorem first_callback_commits :
    ¬ ((stepperRun (new "k" 0 2 1 false false 2 emptyParams)
        [.incrementPressed, .buttonReleased, .incrementPressed, .timerFired 0]).params.writes
      = (new "k" 0 2 1 false false 2 emptyParams).params.writes) := by
  rw [commit_example]
  simp [new, emptyParams]

/-- C7, amended, at the stepper and presses of the counterexample. -/
theorem debounce_commit_rule_witness :
    (stepperRun (new "k" 0 2 1 false false 2 emptyParams)
      [.incrementPressed, .buttonReleased, .incrementPressed,
        .timerFired (new "k" 0 2 1 false false 2 emptyParams).timers.length]).timers
      = (new "k" 0 2 1 false false 2 emptyParams).timers :=
  (debounce_commit_rule (new "k" 0 2 1 false false 2 emptyParams) .incrementPressed
    .incrementPressed rfl rfl).2.2.1

theorem instantUpdate_example :
    adjustValue (new "k" 0 10 1 true false 2 emptyParams) 1 =
      { new "k" 0 10 1 true false 2 emptyParams with value := 3, valueChangedLog := [3] } := by
  simp only [adjustValue, updateValueDisplay, new, accelerate, decimalPlacesOf_one, zpow_zero,
    mul_one, div_one]
  norm_num [qBound, stdRound_three, fmod_two_five]

/-- C8, counterexample: an immediate-mode stepper with bounds `[0, 10]`, `interval = 1`,
value 2 and a store holding 0 under its key. One increment press emits
`valueChanged(3)`, but the store still holds 0 and nothing was written. -/
theorem instantUpdate_press_writes_nothing :
    (onIncrementPressed (new "k" 0 10 1 true false 2 emptyParams)).valueChangedLog = [3] ∧
      (onIncrementPressed (new "k" 0 10 1 true false 2 emptyParams)).params.writes = [] ∧
      ¬ ((onIncrementPressed (new "k" 0 10 1 true false 2 emptyParams)).params.getFloat "k" =
        (onIncrementPressed (new "k" 0 10 1 true false 2 emptyParams)).value) := by
  have h : onIncrementPressed (new "k" 0 10 1 true false 2 emptyParams) =
      adjustValue (new "k" 0 10 1 true false 2 emptyParams) 1 := rfl
  rw [h, instantUpdate_example]
  refine ⟨rfl, rfl, ?_⟩
  simp [new, emptyParams, Params.getFloat]

/-- C8, amended, at the stepper of the counterexample. -/
theorem adjustValue_instantUpdate_witness :
    (adjustValue (new "k" 0 10 1 true false 2 emptyParams) 1).params =
      (new "k" 0 10 1 true false 2 emptyParams).params :=
  (adjustValue_instantUpdate (new "k" 0 10 1 true false 2 emptyParams) 1 rfl).2.1

/-! ### The acceleration rule, in any arithmetic -/

theorem adjustValueWith_exactArithmetic (c : FrogPilotParamValueControl) (delta : ℚ) :
    c.adjustValueWith exactArithmetic delta = c.adjustValue delta := rfl

theorem stepperStepWith_exactArithmetic (c : FrogPilotParamValueControl) (e : StepperEvent) :
    stepperStepWith exactArithmetic c e = stepperStep c e := by
  cases e <;> rfl

theorem stepperRunWith_exactArithmetic (c : FrogPilotParamValueControl)
    (events : List StepperEvent) :
    stepperRunWith exactArithmetic c events = stepperRun c events := by
  induction events generalizing c with
  | nil => rfl
  | cons e es ih =>
    simp only [stepperRunWith, stepperRun, List.foldl_cons] at ih ⊢
    rw [stepperStepWith_exactArithmetic, ih]

theorem stepperRunWith_snoc (arith : Arithmetic) (c : FrogPilotParamValueControl)
    (events : List StepperEvent) (e : StepperEvent) :
    stepperRunWith arith c (events ++ [e]) =
      stepperStepWith arith (stepperRunWith arith c events) e := by
  simp [stepperRunWith, List.foldl_append]

theorem accelerateWith_fst (arith : Arithmetic) (c : FrogPilotParamValueControl) (delta : ℚ) :
    (c.accelerateWith arith delta).1 =
      if crossesWith arith c = true ∧ c.previousDelta = true then arith.mul delta 5
      else delta := by
  simp only [accelerateWith, crossesWith, decide_eq_true_eq]
  by_cases h : arith.fmod c.value (arith.mul 5 c.interval) < c.interval <;>
    by_cases hp : c.previousDelta = true <;> simp [h, hp]

theorem accelerateWith_snd (arith : Arithmetic) (c : FrogPilotParamValueControl) (delta : ℚ) :
    (c.accelerateWith arith delta).2 = (c.previousDelta || crossesWith arith c) := by
  simp only [accelerateWith, crossesWith]
  by_cases h : arith.fmod c.value (arith.mul 5 c.interval) < c.interval <;> simp [h]

theorem previousDelta_adjustValueWith (arith : Arithmetic) (c : FrogPilotParamValueControl)
    (delta : ℚ) :
    (c.adjustValueWith arith delta).previousDelta = (c.previousDelta || crossesWith arith c) := by
  unfold adjustValueWith
  rw [previousDelta_updateValueDisplay]
  exact accelerateWith_snd arith c delta

theorem interval_adjustValueWith (arith : Arithmetic) (c : FrogPilotParamValueControl)
    (delta : ℚ) : (c.adjustValueWith arith delta).interval = c.interval := by
  unfold adjustValueWith
  exact (sameConfig_updateValueDisplay _).2.2.2.1

theorem value_adjustValueWith (arith : Arithmetic) (c : FrogPilotParamValueControl)
    (delta : ℚ) :
    (c.adjustValueWith arith delta).value =
      arith.div (arith.round (arith.mul
        (qBound c.minValue (arith.add c.value (c.accelerateWith arith delta).1) c.maxValue)
        c.factor)) c.factor := by
  unfold adjustValueWith
  rw [value_updateValueDisplay]

theorem interval_stepperStepWith (arith : Arithmetic) (c : FrogPilotParamValueControl)
    (e : StepperEvent) : (stepperStepWith arith c e).interval = c.interval := by
  cases e with
  | incrementPressed => exact interval_adjustValueWith arith c _
  | decrementPressed => exact interval_adjustValueWith arith c _
  | buttonReleased => rfl
  | timerFired i =>
    simp only [stepperStepWith]
    cases c.timers[i]? with
    | none => rfl
    | some lv => exact (sameConfig_releaseCallback lv (c.dropTimer i)).2.2.2.1
  | shown => exact (sameConfig_updateValueDisplay _).2.2.2.1

theorem interval_stepperRunWith (arith : Arithmetic) (c : FrogPilotParamValueControl)
    (events : List StepperEvent) : (stepperRunWith arith c events).interval = c.interval := by
  induction events using List.reverseRecOn with
  | nil => rfl
  | append_singleton es e ih => rw [stepperRunWith_snoc, interval_stepperStepWith, ih]

theorem previousDelta_stepperStepWith (arith : Arithmetic) (c : FrogPilotParamValueControl)
    (e : StepperEvent) :
    (stepperStepWith arith c e).previousDelta =
      if commits c e = true then false
      else (c.previousDelta || (e.isPress && crossesWith arith c)) := by
  cases e with
  | incrementPressed =>
    simp [stepperStepWith, previousDelta_adjustValueWith, commits, StepperEvent.isPress]
  | decrementPressed =>
    simp [stepperStepWith, previousDelta_adjustValueWith, commits, StepperEvent.isPress]
  | buttonReleased => simp [stepperStepWith, onButtonReleased, commits, StepperEvent.isPress]
  | timerFired i =>
    simp only [stepperStepWith, commits, StepperEvent.isPress]
    cases c.timers[i]? with
    | none => simp
    | some lv =>
      by_cases h : lv = c.value
      · subst h
        have h1 : (releaseCallback c.value (dropTimer c i)).previousDelta = false :=
          (releaseCallback_of_eq (dropTimer c i)).2.1
        simp [h1]
      · have h1 : releaseCallback lv (dropTimer c i) = dropTimer c i :=
          releaseCallback_of_ne lv (dropTimer c i) h
        simp only [h1, h, decide_False, Bool.false_eq_true, if_false, Bool.and_false,
          Bool.false_and, Bool.or_false]
        rfl
  | shown =>
    simp [stepperStepWith, refresh, previousDelta_updateValueDisplay, commits,
      StepperEvent.isPress]

theorem commits_of_isPress (c : FrogPilotParamValueControl) (e : StepperEvent)
    (h : e.isPress = true) : commits c e = false := by
  cases e <;> simp_all [StepperEvent.isPress, commits]

theorem armedWith_snoc (arith : Arithmetic) (c : FrogPilotParamValueControl)
    (events : List StepperEvent) (e : StepperEvent) :
    armedWith arith c (events ++ [e]) ↔
      (commits (stepperRunWith arith c events) e = false ∧ armedWith arith c events) ∨
        (e.isPress = true ∧ crossesWith arith (stepperRunWith arith c events) = true) := by
  constructor
  · rintro ⟨j, e1, hj, hp, hc, hk⟩
    rcases Nat.lt_or_ge j events.length with hlt | hge
    · left
      have hlast := hk events.length e hlt (by simp)
      rw [List.take_append_of_le_length (le_refl _), List.take_length] at hlast
      refine ⟨hlast, j, e1, ?_, hp, ?_, ?_⟩
      · rwa [List.getElem?_append_left hlt] at hj
      · rwa [List.take_append_of_le_length hlt.le] at hc
      · intro k e2 hjk hk2
        have hklt : k < events.length := by
          by_contra hcon
          rw [List.getElem?_eq_none (by omega)] at hk2
          exact Option.noConfusion hk2
        have := hk k e2 hjk (by rwa [List.getElem?_append_left hklt])
        rwa [List.take_append_of_le_length hklt.le] at this
    · right
      have hjeq : j = events.length := by
        by_contra hcon
        rw [List.getElem?_eq_none (by simp; omega)] at hj
        exact Option.noConfusion hj
      subst hjeq
      rw [List.getElem?_append_right (le_refl _)] at hj
      simp at hj
      subst hj
      rw [List.take_append_of_le_length (le_refl _), List.take_length] at hc
      exact ⟨hp, hc⟩
  · rintro (⟨hcm, j, e1, hj, hp, hc, hk⟩ | ⟨hp, hc⟩)
    · have hjlt : j < events.length := by
        by_contra hcon
        rw [List.getElem?_eq_none (by omega)] at hj
        exact Option.noConfusion hj
      refine ⟨j, e1, ?_, hp, ?_, ?_⟩
      · rwa [List.getElem?_append_left hjlt]
      · rwa [List.take_append_of_le_length hjlt.le]
      · intro k e2 hjk hk2
        rcases Nat.lt_or_ge k events.length with hlt | hge
        · rw [List.getElem?_append_left hlt] at hk2
          rw [List.take_append_of_le_length hlt.le]
          exact hk k e2 hjk hk2
        · have hkeq : k = events.length := by
            by_contra hcon
            rw [List.getElem?_eq_none (by simp; omega)] at hk2
            exact Option.noConfusion hk2
          subst hkeq
          rw [List.getElem?_append_right (le_refl _)] at hk2
          simp at hk2
          subst hk2
          rw [List.take_append_of_le_length (le_refl _), List.take_length]
          exact hcm
    · refine ⟨events.length, e, by simp, hp, ?_, ?_⟩
      · rwa [List.take_append_of_le_length (le_refl _), List.take_length]
      · intro k e2 hjk hk2
        rw [List.getElem?_eq_none (by simp; omega)] at hk2
        exact Option.noConfusion hk2

theorem not_armedWith_nil (arith : Arithmetic) (c : FrogPilotParamValueControl) :
    ¬ armedWith arith c [] := by
  rintro ⟨j, e, hj, _⟩
  simp at hj

theorem previousDelta_iff_armedWith (arith : Arithmetic) (c : FrogPilotParamValueControl)
    (h0 : c.previousDelta = false) (events : List StepperEvent) :
    (stepperRunWith arith c events).previousDelta = true ↔ armedWith arith c events := by
  induction events using List.reverseRecOn with
  | nil => simp [stepperRunWith, h0, not_armedWith_nil]
  | append_singleton es e ih =>
    rw [stepperRunWith_snoc, previousDelta_stepperStepWith, armedWith_snoc, ← ih]
    by_cases hc : commits (stepperRunWith arith c es) e = true
    · have hnp : e.isPress = false := by
        by_contra hcon
        have := commits_of_isPress (stepperRunWith arith c es) e (by simpa using hcon)
        rw [this] at hc
        exact Bool.noConfusion hc
      simp [hc, hnp]
    · have hc2 : commits (stepperRunWith arith c es) e = false := by simpa using hc
      simp [hc2]

theorem previousDelta_replicate_increment (arith : Arithmetic) (c : FrogPilotParamValueControl)
    (h0 : c.previousDelta = false) (k : ℕ) :
    (stepperRunWith arith c (List.replicate k .incrementPressed)).previousDelta = true ↔
      ∃ m, m < k ∧
        crossesWith arith (stepperRunWith arith c (List.replicate m .incrementPressed)) = true := by
  induction k with
  | zero => simp [stepperRunWith, h0]
  | succ k ih =>
    rw [List.replicate_succ', stepperRunWith_snoc, previousDelta_stepperStepWith]
    have hcm : commits (stepperRunWith arith c (List.replicate k .incrementPressed))
        .incrementPressed = false := rfl
    rw [hcm, if_neg (by simp)]
    simp only [StepperEvent.isPress, Bool.true_and, Bool.or_eq_true, ih]
    constructor
    · rintro (⟨m, hm, hc⟩ | hc)
      · exact ⟨m, by omega, hc⟩
      · exact ⟨k, by omega, hc⟩
    · rintro ⟨m, hm, hc⟩
      rcases Nat.lt_or_ge m k with hlt | hge
      · exact Or.inl ⟨m, hlt, hc⟩
      · have : m = k := by omega
        subst this
        exact Or.inr hc

theorem adjustValueWith_value_of_unaltered (arith : Arithmetic)
    (s : FrogPilotParamValueControl) (delta : ℚ)
    (h : Unaltered arith s (s.accelerateWith arith delta).1) :
    (s.adjustValueWith arith delta).value = arith.add s.value (s.accelerateWith arith delta).1 := by
  obtain ⟨hlo, hhi, hround⟩ := h
  have hq : qBound s.minValue (arith.add s.value (s.accelerateWith arith delta).1) s.maxValue =
      arith.add s.value (s.accelerateWith arith delta).1 := by
    unfold qBound
    rw [min_eq_right hhi, max_eq_right hlo]
  rw [value_adjustValueWith, hq, hround]

theorem value_increment_of_unaltered (arith : Arithmetic) (c : FrogPilotParamValueControl)
    (k : ℕ) (step : ℚ)
    (hstep : ((stepperRunWith arith c (List.replicate k .incrementPressed)).accelerateWith
      arith c.interval).1 = step)
    (h : Unaltered arith (stepperRunWith arith c (List.replicate k .incrementPressed)) step) :
    (stepperRunWith arith c (List.replicate (k + 1) .incrementPressed)).value =
      arith.add (stepperRunWith arith c (List.replicate k .incrementPressed)).value step := by
  rw [List.replicate_succ', stepperRunWith_snoc]
  show ((stepperRunWith arith c (List.replicate k .incrementPressed)).adjustValueWith arith
    (stepperRunWith arith c (List.replicate k .incrementPressed)).interval).value = _
  rw [interval_stepperRunWith]
  rw [← hstep] at h ⊢
  exact adjustValueWith_value_of_unaltered arith _ _ h

/-- C6, amended: in whatever arithmetic the machine computes, the step
`adjustValue(delta)` adds is `delta * 5` when the remainder test
`fmod(value, 5 * interval) < interval` succeeds and `previousDelta` is set, and
`delta` otherwise; and, starting from `previousDelta = false`, after any
sequence of events `previousDelta` is set exactly when an earlier press was
made with the test succeeding and no release callback has committed since.
When neither the clamp nor the rounding to the precision alters the sum
(`Unaltered`), the value moves by exactly that step. So, pressing increment `k`
times and then once more, with that press unaltered: the value moves by
`interval` when the test of that press fails, by `interval` when it is the
first press whose test succeeds, and by `5 * interval` when the test succeeds
and already succeeded on an earlier press. -/
theorem accelerate_step_rule (arith : Arithmetic) (c : FrogPilotParamValueControl)
    (h0 : c.previousDelta = false) (events : List StepperEvent) (delta : ℚ) (k : ℕ) :
    (∀ s : FrogPilotParamValueControl,
        (s.accelerateWith arith delta).1 =
          if crossesWith arith s = true ∧ s.previousDelta = true then arith.mul delta 5
          else delta) ∧
      ((stepperRunWith arith c events).previousDelta = true ↔ armedWith arith c events) ∧
      (crossesWith arith (stepperRunWith arith c events) = true ∧ armedWith arith c events →
        ((stepperRunWith arith c events).accelerateWith arith delta).1 = arith.mul delta 5) ∧
      (¬ (crossesWith arith (stepperRunWith arith c events) = true ∧ armedWith arith c events) →
        ((stepperRunWith arith c events).accelerateWith arith delta).1 = delta) ∧
      (∀ s : FrogPilotParamValueControl, Unaltered arith s (s.accelerateWith arith delta).1 →
        (s.adjustValueWith arith delta).value =
          arith.add s.value (s.accelerateWith arith delta).1) ∧
      (crossesWith arith (stepperRunWith arith c (List.replicate k .incrementPressed)) = false →
        Unaltered arith (stepperRunWith arith c (List.replicate k .incrementPressed))
          c.interval →
        (stepperRunWith arith c (List.replicate (k + 1) .incrementPressed)).value =
          arith.add (stepperRunWith arith c (List.replicate k .incrementPressed)).value
            c.interval) ∧
      (crossesWith arith (stepperRunWith arith c (List.replicate k .incrementPressed)) = true →
        (∀ m, m < k →
          crossesWith arith (stepperRunWith arith c (List.replicate m .incrementPressed))
            = false) →
        Unaltered arith (stepperRunWith arith c (List.replicate k .incrementPressed))
          c.interval →
        (stepperRunWith arith c (List.replicate (k + 1) .incrementPressed)).value =
          arith.add (stepperRunWith arith c (List.replicate k .incrementPressed)).value
            c.interval) ∧
      (crossesWith arith (stepperRunWith arith c (List.replicate k .incrementPressed)) = true →
        (∃ m, m < k ∧
          crossesWith arith (stepperRunWith arith c (List.replicate m .incrementPressed))
            = true) →
        Unaltered arith (stepperRunWith arith c (List.replicate k .incrementPressed))
          (arith.mul c.interval 5) →
        (stepperRunWith arith c (List.replicate (k + 1) .incrementPressed)).value =
          arith.add (stepperRunWith arith c (List.replicate k .incrementPressed)).value
            (arith.mul c.interval 5)) := by
  refine ⟨fun s => accelerateWith_fst arith s delta, previousDelta_iff_armedWith arith c h0 events,
    ?_, ?_, fun s h => adjustValueWith_value_of_unaltered arith s delta h, ?_, ?_, ?_⟩
  · intro h
    rw [accelerateWith_fst, if_pos ⟨h.1, (previousDelta_iff_armedWith arith c h0 events).2 h.2⟩]
  · intro h
    rw [accelerateWith_fst,
      if_neg (fun h2 => h ⟨h2.1, (previousDelta_iff_armedWith arith c h0 events).1 h2.2⟩)]
  · intro hc hu
    refine value_increment_of_unaltered arith c k c.interval ?_ hu
    rw [accelerateWith_fst, hc]
    simp
  · intro hc hall hu
    have hpd : ¬ (stepperRunWith arith c (List.replicate k .incrementPressed)).previousDelta
        = true := by
      rw [previousDelta_replicate_increment arith c h0 k]
      rintro ⟨m, hm, hcm⟩
      rw [hall m hm] at hcm
      exact Bool.noConfusion hcm
    refine value_increment_of_unaltered arith c k c.interval ?_ hu
    rw [accelerateWith_fst, if_neg (fun h => hpd h.2)]
  · intro hc hex hu
    have hpd := (previousDelta_replicate_increment arith c h0 k).2 hex
    refine value_increment_of_unaltered arith c k (arith.mul c.interval 5) ?_ hu
    rw [accelerateWith_fst, if_pos ⟨hc, hpd⟩]

theorem fmod_of_nonpos_gt {x y : ℚ} (h0 : x ≤ 0) (h1 : -y < x) : fmod x y = x := by
  have hy : 0 < y := by linarith
  have h2 : truncQ (x / y) = 0 := by
    unfold truncQ
    split_ifs with h
    · have hx : x = 0 := by
        have := (div_nonneg_iff.1 h)
        rcases this with ⟨hx, _⟩ | ⟨_, hy2⟩
        · exact le_antisymm h0 hx
        · linarith
      simp [hx]
    · rw [Int.ceil_eq_iff]
      constructor
      · have : -1 < x / y := by
          rw [lt_div_iff₀ hy]
          linarith
        push_cast
        linarith
      · push_cast
        exact div_nonpos_of_nonpos_of_nonneg h0 hy.le
  simp [fmod, h2]

theorem decimalPlacesOf_quarter : decimalPlacesOf (1 / 4) = 1 := by
  have h : ((1 : ℚ) / 4)⁻¹ = ((4 : ℕ) : ℚ) := by norm_num
  rw [decimalPlacesOf, h, Int.clog_natCast]
  have : Nat.clog 10 4 = 1 := Nat.clog_eq_one (by norm_num) (by norm_num)
  rw [this]
  rfl

theorem quarter_step_example :
    stepperRunWith exactArithmetic (new "k" (-100) 100 (1 / 4) false false 0 emptyParams)
        (List.replicate 1 .incrementPressed) =
      { new "k" (-100) 100 (1 / 4) false false 0 emptyParams with
        value := 3 / 10, previousDelta := true } := by
  have h0 : fmod 0 (5 / 4) = 0 := fmod_of_nonneg_lt (by norm_num) (by norm_num)
  show adjustValue (new "k" (-100) 100 (1 / 4) false false 0 emptyParams) (1 / 4) = _
  simp only [adjustValue, updateValueDisplay, new, accelerate, decimalPlacesOf_quarter, zpow_one]
  norm_num [qBound, stdRound_five_halves, h0]

/-- C6, counterexample: bounds `[-100, 100]`, `interval = 1/4` (so `decimalPlaces = 1`
and `factor = 10`), value 0 and `previousDelta = false`. The first increment is
made with the remainder `0` below `interval` and the range does not clamp
`0 + 1/4`, yet the value moves to `round(2.5) / 10 = 3/10`, not by `interval`.
With `float`s every operation of this press but the last division is exact,
and the source gives `0.3f`. -/
theorem press_step_not_interval :
    crossesWith exactArithmetic (stepperRunWith exactArithmetic
        (new "k" (-100) 100 (1 / 4) false false 0 emptyParams)
        (List.replicate 0 .incrementPressed)) = true ∧
      (new "k" (-100) 100 (1 / 4) false false 0 emptyParams).minValue ≤
        (new "k" (-100) 100 (1 / 4) false false 0 emptyParams).value +
          (new "k" (-100) 100 (1 / 4) false false 0 emptyParams).interval ∧
      (new "k" (-100) 100 (1 / 4) false false 0 emptyParams).value +
          (new "k" (-100) 100 (1 / 4) false false 0 emptyParams).interval ≤
        (new "k" (-100) 100 (1 / 4) false false 0 emptyParams).maxValue ∧
      (stepperRunWith exactArithmetic (new "k" (-100) 100 (1 / 4) false false 0 emptyParams)
        (List.replicate 1 .incrementPressed)).value = 3 / 10 ∧
      ¬ ((stepperRunWith exactArithmetic (new "k" (-100) 100 (1 / 4) false false 0 emptyParams)
          (List.replicate 1 .incrementPressed)).value =
        exactArithmetic.add (new "k" (-100) 100 (1 / 4) false false 0 emptyParams).value
          (new "k" (-100) 100 (1 / 4) false false 0 emptyParams).interval) := by
  have h0 : fmod 0 (5 / 4) = 0 := fmod_of_nonneg_lt (by norm_num) (by norm_num)
  rw [quarter_step_example]
  refine ⟨?_, ?_, ?_, rfl, ?_⟩
  · simp only [stepperRunWith, List.replicate, List.foldl_nil, crossesWith, exactArithmetic, new]
    norm_num [h0]
  · norm_num [new]
  · norm_num [new]
  · norm_num [new, exactArithmetic]

theorem crossesWith_example_zero :
    crossesWith exactArithmetic (stepperRunWith exactArithmetic
      (new "k" (-100) 100 1 false false (-1) emptyParams)
      (List.replicate 0 .incrementPressed)) = true := by
  have h : fmod (-1) 5 = -1 := fmod_of_nonpos_gt (by norm_num) (by norm_num)
  simp [stepperRunWith, crossesWith, exactArithmetic, new, h]

theorem stepperRunWith_example_one :
    stepperRunWith exactArithmetic (new "k" (-100) 100 1 false false (-1) emptyParams)
        (List.replicate 1 .incrementPressed) =
      { new "k" (-100) 100 1 false false (-1) emptyParams with
        value := 0, previousDelta := true } := by
  have h : fmod (-1) 5 = -1 := fmod_of_nonpos_gt (by norm_num) (by norm_num)
  show adjustValue (new "k" (-100) 100 1 false false (-1) emptyParams) 1 = _
  simp only [adjustValue, updateValueDisplay, new, accelerate, decimalPlacesOf_one, zpow_zero,
    mul_one, div_one]
  norm_num [qBound, stdRound_zero, h]

theorem crossesWith_example_one :
    crossesWith exactArithmetic (stepperRunWith exactArithmetic
      (new "k" (-100) 100 1 false false (-1) emptyParams)
      (List.replicate 1 .incrementPressed)) = true := by
  have h0 : fmod 0 5 = 0 := fmod_of_nonneg_lt (by norm_num) (by norm_num)
  rw [stepperRunWith_example_one]
  simp [crossesWith, exactArithmetic, new, h0]

theorem unaltered_example_one :
    Unaltered exactArithmetic (stepperRunWith exactArithmetic
      (new "k" (-100) 100 1 false false (-1) emptyParams)
      (List.replicate 1 .incrementPressed))
      (exactArithmetic.mul (new "k" (-100) 100 1 false false (-1) emptyParams).interval 5) := by
  have h5 : stdRound 5 = 5 := by
    have h := stdRound_intCast 5
    norm_num at h
    exact h
  rw [stepperRunWith_example_one]
  simp only [Unaltered, exactArithmetic, new, decimalPlacesOf_one, zpow_zero]
  norm_num [h5]

/-- C6, amended, at bounds `[-100, 100]`, `interval = 1`, value `-1` and
`previousDelta = false`, in exact arithmetic: the first increment is made with
the remainder `-1` below `interval` and so is the second (remainder `0`); the
range does not clamp `0 + 5` and `5` is on the grid, so the second press moves
the value by `5 * interval`. -/
theorem accelerate_step_rule_witness :
    (new "k" (-100) 100 1 false false (-1) emptyParams).previousDelta = false ∧
      (stepperRunWith exactArithmetic (new "k" (-100) 100 1 false false (-1) emptyParams)
          (List.replicate (1 + 1) .incrementPressed)).value =
        exactArithmetic.add
          (stepperRunWith exactArithmetic (new "k" (-100) 100 1 false false (-1) emptyParams)
            (List.replicate 1 .incrementPressed)).value
          (exactArithmetic.mul (new "k" (-100) 100 1 false false (-1) emptyParams).interval 5) :=
  ⟨rfl, (accelerate_step_rule exactArithmetic (new "k" (-100) 100 1 false false (-1) emptyParams)
    rfl [] 1 1).2.2.2.2.2.2.2 crossesWith_example_one ⟨0, by norm_num, crossesWith_example_zero⟩
    unaltered_example_one⟩

/-! ## Theorems: the toggle with buttons -/

theorem getElem?_setVisible (bs : List QPushButton) (i j : Nat) (v : Bool) :
    (setVisible bs i v)[j]? =
      if i = j then bs[j]?.map (fun b => { b with visible := v }) else bs[j]? := by
  unfold setVisible
  by_cases h : i = j
  · subst h
    simp
  · simp [h, List.getElem?_modify_ne]

theorem length_setVisible (bs : List QPushButton) (i : Nat) (v : Bool) :
    (setVisible bs i v).length = bs.length := by
  simp [setVisible]

theorem getElem?_setChecked (bs : List QPushButton) (i j : Nat) (v : Bool) :
    (setChecked false bs i v)[j]? =
      if i = j then bs[j]?.map (fun b => { b with checked := v }) else bs[j]? := by
  unfold setChecked
  cases hb : bs[i]? with
  | none =>
    by_cases h : i = j
    · subst h
      simp [hb]
    · simp [h]
  | some b =>
    by_cases hc : b.checked = v
    · by_cases h : i = j
      · subst h
        obtain ⟨bv, bc⟩ := b
        simp only at hc
        subst hc
        simp [hb]
      · simp [hc, h]
    · by_cases h : i = j
      · subst h
        have hlt : i < bs.length := by
          by_contra hcon
          rw [List.getElem?_eq_none (by omega)] at hb
          exact Option.noConfusion hb
        simp [hc, hb, List.getElem?_set, hlt]
      · simp [hc, h, List.getElem?_set_ne]

theorem length_setChecked (bs : List QPushButton) (i : Nat) (v : Bool) :
    (setChecked false bs i v).length = bs.length := by
  unfold setChecked
  cases bs[i]? with
  | none => rfl
  | some b =>
    simp only
    split_ifs <;> simp

theorem refreshLoop_spec (state : Bool) (c : FrogPilotButtonToggleControl)
    (hex : c.exclusive = false) (n : Nat) (hn : n ≤ c.buttonParams.length) :
    ∃ d, (List.range n).foldlM (FrogPilotButtonToggleControl.refreshButton state) c = some d ∧
      d.key = c.key ∧ d.buttonParams = c.buttonParams ∧ d.exclusive = c.exclusive ∧
      d.toggleOn = c.toggleOn ∧ d.params = c.params ∧ d.buttonClickedLog = c.buttonClickedLog ∧
      d.buttons.length = c.buttons.length ∧
      ∀ j, d.buttons[j]? =
        if j < n then
          c.buttons[j]?.map (fun _ =>
            { visible := state, checked := c.params.getBool (c.buttonParams.getD j "") })
        else c.buttons[j]? := by
  induction n with
  | zero => exact ⟨c, rfl, rfl, rfl, rfl, rfl, rfl, rfl, rfl, fun j => by simp⟩
  | succ n ih =>
    obtain ⟨d, hd, h1, h2, h3, h4, h5, h6, h7, h8⟩ := ih (by omega)
    have hlt : n < c.buttonParams.length := by omega
    have hget : d.buttonParams[n]? = some (c.buttonParams[n]) := by
      rw [h2]
      exact List.getElem?_eq_getElem hlt
    rw [List.range_succ, List.foldlM_append, hd]
    simp only [Option.bind_eq_bind, Option.some_bind, List.foldlM_cons, List.foldlM_nil]
    simp only [FrogPilotButtonToggleControl.refreshButton, hget, Option.some_bind,
      Option.pure_def]
    refine ⟨_, rfl, h1, h2, h3, h4, h5, h6, ?_, ?_⟩
    · simp only [h3, hex, length_setChecked, length_setVisible, h7]
    · intro j
      simp only [h3, hex, h5]
      rw [getElem?_setChecked, getElem?_setVisible, h8]
      by_cases hjn : n = j
      · subst hjn
        simp only [if_true, lt_irrefl, if_false, Nat.lt_succ_self, Option.map_map]
        cases c.buttons[n]? with
        | none => rfl
        | some b => simp [List.getD_eq_getElem?_getD, List.getElem?_eq_getElem hlt]
      · simp only [hjn, if_false]
        by_cases hj : j < n
        · simp [hj, Nat.lt_succ_of_lt hj]
        · have : ¬ j < n + 1 := by omega
          simp [hj, this]

/-- C9: for a toggle with buttons whose group is not exclusive and which has one
button for each child key, whatever the store and the visual state before,
`refresh()` returns; afterwards the toggle is on exactly when the stored boolean
of the parent key is true, the store (values and write log) is as before, and
button `i` is visible exactly when the parent boolean is true and checked
exactly when the boolean stored under child key `i` is true. -/
theorem refresh_matches_store (c : FrogPilotButtonToggleControl) (hex : c.exclusive = false)
    (hlen : c.buttonParams.length = c.buttons.length) :
    ∃ d, c.refresh = some d ∧
      d.toggleOn = c.params.getBool c.key ∧
      d.params = c.params ∧
      d.buttons.length = c.buttons.length ∧
      ∀ i, i < c.buttons.length →
        ∃ b param, d.buttons[i]? = some b ∧ c.buttonParams[i]? = some param ∧
          b.visible = c.params.getBool c.key ∧ b.checked = c.params.getBool param := by
  have hgen : ∀ c0 : FrogPilotButtonToggleControl, c0.exclusive = false →
      c0.buttonParams.length = c0.buttons.length →
      ∃ d, (List.range c0.buttons.length).foldlM
          (FrogPilotButtonToggleControl.refreshButton (c.params.getBool c.key)) c0 = some d ∧
        d.toggleOn = c0.toggleOn ∧ d.params = c0.params ∧
        d.buttons.length = c0.buttons.length ∧
        ∀ i, i < c0.buttons.length →
          ∃ b param, d.buttons[i]? = some b ∧ c0.buttonParams[i]? = some param ∧
            b.visible = c.params.getBool c.key ∧ b.checked = c0.params.getBool param := by
    intro c0 h0 hl
    obtain ⟨d, hd, _, _, _, h4, h5, _, h7, h8⟩ :=
      refreshLoop_spec (c.params.getBool c.key) c0 h0 c0.buttons.length (by omega)
    refine ⟨d, hd, h4, h5, h7, ?_⟩
    intro i hi
    have hip : i < c0.buttonParams.length := by omega
    refine ⟨{ visible := c.params.getBool c.key,
              checked := c0.params.getBool (c0.buttonParams.getD i "") },
      c0.buttonParams[i], ?_, List.getElem?_eq_getElem hip, rfl, ?_⟩
    · rw [h8 i, if_pos hi, List.getElem?_eq_getElem hi]
      rfl
    · simp [List.getD_eq_getElem?_getD, List.getElem?_eq_getElem hip]
  unfold FrogPilotButtonToggleControl.refresh
  by_cases hs : c.params.getBool c.key = c.toggleOn
  · simp only [ne_eq, hs, not_true_eq_false, if_false]
    obtain ⟨d, hd, h1, h2, h3, h4⟩ := hgen c hex hlen
    rw [hs] at hd h4
    exact ⟨d, hd, h1, h2, h3, h4⟩
  · simp only [ne_eq, hs, not_false_eq_true, if_true]
    obtain ⟨d, hd, h1, h2, h3, h4⟩ := hgen (FrogPilotButtonToggleControl.togglePosition c) hex hlen
    refine ⟨d, hd, ?_, h2, h3, h4⟩
    rw [h1]
    simp only [FrogPilotButtonToggleControl.togglePosition]
    cases hg : c.params.getBool c.key <;> cases ht : c.toggleOn <;> simp_all

/-- C9, the scenario of the spec: parent key "P", child keys "A" and "B", the store
holding `P = true`, `A = true`, `B = false`; before the refresh the toggle is
off, both buttons are hidden and only B is checked. After the refresh the
toggle is on, A is visible and checked, B is visible and unchecked. -/
theorem refresh_matches_store_witness :
    ∃ d, FrogPilotButtonToggleControl.refresh
        { key := "P", buttonParams := ["A", "B"], exclusive := false, toggleOn := false,
          buttons := [⟨false, false⟩, ⟨false, true⟩],
          params := { emptyParams with bools := fun k => decide (k = "P") || decide (k = "A") },
          buttonClickedLog := [] } = some d ∧
      d.toggleOn = true ∧ d.buttons = [⟨true, true⟩, ⟨true, false⟩] ∧ d.params.writes = [] := by
  obtain ⟨d, hd, h1, h2, h3, h4⟩ := refresh_matches_store
    { key := "P", buttonParams := ["A", "B"], exclusive := false, toggleOn := false,
      buttons := [⟨false, false⟩, ⟨false, true⟩],
      params := { emptyParams with bools := fun k => decide (k = "P") || decide (k = "A") },
      buttonClickedLog := [] } rfl rfl
  refine ⟨d, hd, ?_, ?_, ?_⟩
  · rw [h1]
    simp [Params.getBool]
  · obtain ⟨b0, p0, hb0, hp0, hv0, hc0⟩ := h4 0 (by simp)
    obtain ⟨b1, p1, hb1, hp1, hv1, hc1⟩ := h4 1 (by simp)
    simp only [List.getElem?_cons_zero, List.getElem?_cons_succ, Option.some.injEq] at hp0 hp1
    subst hp0 hp1
    simp only [Params.getBool] at hv0 hc0 hv1 hc1
    have hl : d.buttons.length = 2 := h3
    match hdb : d.buttons, hl with
    | [x, y], _ =>
      rw [hdb] at hb0 hb1
      simp only [List.getElem?_cons_zero, List.getElem?_cons_succ, Option.some.injEq] at hb0 hb1
      subst hb0 hb1
      obtain ⟨xv, xc⟩ := x
      obtain ⟨yv, yc⟩ := y
      simp only at hv0 hc0 hv1 hc1
      simp_all
  · rw [h2]
    rfl

/-! ## Theorems: the manage control -/

/-- C10: whatever the store and the state before, after `refresh()` the "MANAGE"
button is enabled exactly when the control is enabled and the boolean stored
under its key is true (for the flag `setEnabled` set as for the effective
state); the same holds after a show event and after the slot run on
`toggleFlipped`, both of which end in `refresh()`. The store is not written. -/
theorem manageButton_enabled_iff (c : FrogPilotParamManageControl) :
    (c.refresh.manageButtonIsEnabled = true ↔
        c.enabled = true ∧ c.params.getBool c.key = true) ∧
      (c.showEvent.manageButtonIsEnabled = true ↔
        c.enabled = true ∧ c.params.getBool c.key = true) ∧
      (c.onToggleFlipped.manageButtonIsEnabled = true ↔
        c.enabled = true ∧ c.params.getBool c.key = true) ∧
      (c.refresh.manageButtonEnabled = true ↔
        c.enabled = true ∧ c.params.getBool c.key = true) ∧
      c.refresh.params = c.params ∧ c.refresh.enabled = c.enabled := by
  simp only [FrogPilotParamManageControl.refresh, FrogPilotParamManageControl.showEvent,
    FrogPilotParamManageControl.onToggleFlipped,
    FrogPilotParamManageControl.paramControlShowEvent,
    FrogPilotParamManageControl.manageButtonIsEnabled, Bool.and_eq_true]
  refine ⟨?_, ?_, ?_, ?_, trivial, trivial⟩ <;> tauto

/-! ## Theorems: the visibility propagator -/

theorem showToggles_cons (keys : Finset String) (e : String × Nat) (toggles : List (String × Nat))
    (visible : Nat → Bool) :
    showToggles keys (e :: toggles) visible =
      showToggles keys toggles (Function.update visible e.2 (decide (e.1 ∈ keys))) := rfl

theorem showToggles_of_not_mem (keys : Finset String) (toggles : List (String × Nat))
    (visible : Nat → Bool) (w : Nat) (h : w ∉ toggles.map Prod.snd) :
    showToggles keys toggles visible w = visible w := by
  induction toggles generalizing visible with
  | nil => rfl
  | cons e es ih =>
    simp only [List.map_cons, List.mem_cons, not_or] at h
    rw [showToggles_cons, ih _ h.2, Function.update_noteq h.1]

theorem showToggles_of_mem (keys : Finset String) (toggles : List (String × Nat))
    (visible visible2 : Nat → Bool) (w : Nat) (h : w ∈ toggles.map Prod.snd) :
    showToggles keys toggles visible w = showToggles keys toggles visible2 w := by
  induction toggles generalizing visible visible2 with
  | nil => simp at h
  | cons e es ih =>
    rw [showToggles_cons, showToggles_cons]
    by_cases hw : w ∈ es.map Prod.snd
    · exact ih _ _ hw
    · simp only [List.map_cons, List.mem_cons] at h
      have hwe : w = e.2 := by tauto
      rw [showToggles_of_not_mem _ _ _ _ hw, showToggles_of_not_mem _ _ _ _ hw, hwe]
      simp

theorem showToggles_entry (keys : Finset String) (toggles : List (String × Nat))
    (visible : Nat → Bool) (hc : (toggles.map Prod.snd).Nodup) (e : String × Nat)
    (he : e ∈ toggles) : showToggles keys toggles visible e.2 = decide (e.1 ∈ keys) := by
  induction toggles generalizing visible with
  | nil => simp at he
  | cons f fs ih =>
    simp only [List.map_cons, List.nodup_cons] at hc
    rw [showToggles_cons]
    rcases List.mem_cons.1 he with rfl | hmem
    · rw [showToggles_of_not_mem _ _ _ _ hc.1]
      simp
    · exact ih _ hc.2 hmem

/-- C3: for every key-set `keys`, every registry whose controls are distinct
widgets and every visibility before, after `showToggles(keys)` a control of the
registry is visible if and only if its key is in `keys`; a second call with the
same set changes nothing; and the visibility of the controls of the registry is
the same for any order in which the registry is iterated and any visibility
before the call (so whatever sets earlier calls showed). -/
theorem showToggles_visible_iff (keys : Finset String) (toggles toggles2 : List (String × Nat))
    (visible visible2 : Nat → Bool) (hc : (toggles.map Prod.snd).Nodup)
    (hperm : toggles2.Perm toggles) :
    (∀ e ∈ toggles, showToggles keys toggles visible e.2 = true ↔ e.1 ∈ keys) ∧
      showToggles keys toggles (showToggles keys toggles visible) =
        showToggles keys toggles visible ∧
      (∀ e ∈ toggles, showToggles keys toggles2 visible2 e.2 =
        showToggles keys toggles visible e.2) ∧
      (∀ w, w ∉ toggles.map Prod.snd → showToggles keys toggles visible w = visible w) := by
  refine ⟨?_, ?_, ?_, fun w hw => showToggles_of_not_mem _ _ _ _ hw⟩
  · intro e he
    rw [showToggles_entry keys toggles visible hc e he]
    simp
  · funext w
    by_cases hw : w ∈ toggles.map Prod.snd
    · exact showToggles_of_mem _ _ _ _ _ hw
    · rw [showToggles_of_not_mem _ _ _ _ hw]
  · intro e he
    have hc2 : (toggles2.map Prod.snd).Nodup := (hperm.map Prod.snd).nodup_iff.2 hc
    rw [showToggles_entry keys toggles visible hc e he,
      showToggles_entry keys toggles2 visible2 hc2 e (hperm.mem_iff.2 he)]

/-- C3 at the registry `A ↦ 1`, `B ↦ 2` and the key-set `{A}`: iterated in the
order B, A from a state in which only control 2 is visible, control 1 ends up
visible and control 2 hidden, as in the order A, B from all hidden. -/
theorem showToggles_visible_iff_witness :
    (∀ e ∈ [("A", 1), ("B", 2)],
      showToggles {"A"} [("A", 1), ("B", 2)] (fun _ => false) e.2 = true ↔
        e.1 ∈ ({"A"} : Finset String)) ∧
      (∀ e ∈ [("A", 1), ("B", 2)],
        showToggles {"A"} [("B", 2), ("A", 1)] (fun w => decide (w = 2)) e.2 =
          showToggles {"A"} [("A", 1), ("B", 2)] (fun _ => false) e.2) :=
  ⟨(showToggles_visible_iff {"A"} [("A", 1), ("B", 2)] [("B", 2), ("A", 1)] (fun _ => false)
      (fun w => decide (w = 2)) (by decide) (List.Perm.swap _ _ _)).1,
    (showToggles_visible_iff {"A"} [("A", 1), ("B", 2)] [("B", 2), ("A", 1)] (fun _ => false)
      (fun w => decide (w = 2)) (by decide) (List.Perm.swap _ _ _)).2.2.1⟩


/-! ## Theorems: the model name cleaner -/

theorem isScoreChar_of_isMarker (c : Char) (h : isMarker c = true) : isScoreChar c = false := by
  simp only [isMarker, Bool.or_eq_true, decide_eq_true_eq] at h
  simp only [isScoreChar, isAsciiAlnum, Bool.or_eq_false_iff, Bool.and_eq_false_imp,
    decide_eq_true_eq, decide_eq_false_iff_not]
  omega

theorem isScoreChar_of_isSpace (c : Char) (h : isSpace c = true) : isScoreChar c = false := by
  simp only [isSpace, Bool.or_eq_true, Bool.and_eq_true, decide_eq_true_eq] at h
  simp only [isScoreChar, isAsciiAlnum, Bool.or_eq_false_iff, Bool.and_eq_false_imp,
    decide_eq_true_eq, decide_eq_false_iff_not]
  omega

theorem isSpace_of_isScoreChar (c : Char) (h : isScoreChar c = true) : isSpace c = false := by
  cases hs : isSpace c with
  | false => rfl
  | true => rw [isScoreChar_of_isSpace c hs] at h; exact Bool.noConfusion h

theorem isMarker_of_isScoreChar (c : Char) (h : isScoreChar c = true) : isMarker c = false := by
  cases hs : isMarker c with
  | false => rfl
  | true => rw [isScoreChar_of_isMarker c hs] at h; exact Bool.noConfusion h

theorem isScoreChar_of_isAsciiAlnum (c : Char) (h : isAsciiAlnum c = true) :
    isScoreChar c = true := by
  simp [isScoreChar, h]

theorem eq_of_toNat_eq (c : Char) (n : Nat) (h : c.toNat = n) : c = Char.ofNat n := by
  rw [← h, Char.ofNat_toNat]

theorem filter_isScoreChar_simplifiedLoop (skipping : Bool) (s : QString) :
    (simplifiedLoop skipping s).filter isScoreChar = s.filter isScoreChar := by
  induction s generalizing skipping with
  | nil => cases skipping <;> rfl
  | cons c cs ih =>
    have hsp : isScoreChar ' ' = false := by decide
    cases skipping <;> simp only [simplifiedLoop] <;> split_ifs with h <;>
      simp [List.filter_cons, ih, isScoreChar_of_isSpace, h, hsp]

theorem filter_isScoreChar_dropTrailingSpace (s : QString) :
    (dropTrailingSpace s).filter isScoreChar = s.filter isScoreChar := by
  induction s with
  | nil => rfl
  | cons c cs ih =>
    cases cs with
    | nil =>
      simp only [dropTrailingSpace]
      split_ifs with h
      · subst h
        decide
      · rfl
    | cons d ds =>
      simp only [dropTrailingSpace, List.filter_cons, ih]

theorem filter_isScoreChar_simplified (s : QString) :
    (simplified s).filter isScoreChar = s.filter isScoreChar := by
  rw [simplified, filter_isScoreChar_dropTrailingSpace, filter_isScoreChar_simplifiedLoop]

theorem filter_isScoreChar_removeMatches_isMarker (s : QString) :
    (removeMatches isMarker s).filter isScoreChar = s.filter isScoreChar := by
  induction s with
  | nil => rfl
  | cons c cs ih =>
    simp only [removeMatches] at ih ⊢
    cases hm : isMarker c with
    | true => simp [List.filter_cons, hm, ih, isScoreChar_of_isMarker c hm]
    | false => simp [List.filter_cons, hm, ih]

theorem removeMatches_not_isScoreChar (s : QString) :
    removeMatches (fun c => !isScoreChar c) s = s.filter isScoreChar := by
  simp [removeMatches]

theorem removeAll_singleton (x : Char) (s : QString) :
    removeAll [x] s = s.filter (fun c => decide (c ≠ x)) := by
  unfold removeAll
  induction s with
  | nil => rfl
  | cons c cs ih =>
    simp only [removeAllFrom, startsWith, List.length_singleton, Nat.sub_self]
    cases cs with
    | nil => by_cases h : x = c <;> simp [h, removeAllFrom, startsWith, List.filter_cons, eq_comm]
    | cons d ds =>
      by_cases h : x = c
      · subst h
        simp [startsWith, ih, List.filter_cons]
      · have h2 : ¬ c = x := fun e => h e.symm
        simp [startsWith, h, h2, ih, List.filter_cons]

theorem removeAllFrom_skip (before : QString) (skip : Nat) (s : QString) :
    removeAllFrom before skip s = removeAllFrom before 0 (s.drop skip) := by
  induction s generalizing skip with
  | nil => cases skip <;> rfl
  | cons c cs ih =>
    cases skip with
    | zero => rfl
    | succ k => simp only [removeAllFrom, List.drop_succ_cons, ih k]

theorem eq_append_of_startsWith (before s : QString) (h : startsWith before s = true) :
    s = before ++ s.drop before.length := by
  induction before generalizing s with
  | nil => rfl
  | cons b bs ih =>
    cases s with
    | nil => simp [startsWith] at h
    | cons c cs =>
      simp only [startsWith, Bool.and_eq_true, decide_eq_true_eq] at h
      obtain ⟨rfl, h2⟩ := h
      simp only [List.length_cons, List.drop_succ_cons, List.cons_append]
      rw [← ih cs h2]

theorem deletesOccurrences_removeAll (before : QString) (hb : before ≠ []) :
    ∀ (n : Nat) (s : QString), s.length ≤ n →
      DeletesOccurrences before s (removeAll before s) := by
  intro n
  induction n with
  | zero =>
    intro s hs
    have : s = [] := List.length_eq_zero.1 (by omega)
    subst this
    exact DeletesOccurrences.nil
  | succ n ih =>
    intro s hs
    cases s with
    | nil => exact DeletesOccurrences.nil
    | cons c cs =>
      have hlen : 1 ≤ before.length := by
        cases before with
        | nil => exact absurd rfl hb
        | cons _ _ => simp
      simp only [List.length_cons] at hs
      unfold removeAll
      simp only [removeAllFrom]
      split_ifs with h
      · rw [removeAllFrom_skip]
        have hsplit := eq_append_of_startsWith before (c :: cs) h
        have hdrop : (c :: cs).drop before.length = cs.drop (before.length - 1) := by
          obtain ⟨k, hk⟩ : ∃ k, before.length = k + 1 := ⟨before.length - 1, by omega⟩
          rw [hk]
          rfl
        rw [hdrop] at hsplit
        have hrec := ih (cs.drop (before.length - 1)) (by rw [List.length_drop]; omega)
        have := DeletesOccurrences.drop (w := before) hrec
        rw [← hsplit] at this
        exact this
      · exact DeletesOccurrences.keep c (ih cs (by omega))

theorem deletesOccurrences_sublist {w s r : QString} (h : DeletesOccurrences w s r) :
    r.Sublist s := by
  induction h with
  | nil => exact List.Sublist.slnil
  | keep c _ ih => exact ih.cons₂ c
  | drop _ ih => exact ih.trans (List.sublist_append_right _ _)

theorem deletesOccurrences_filter {w s r : QString} (p : Char → Bool)
    (h : DeletesOccurrences w s r) :
    DeletesOccurrences (w.filter p) (s.filter p) (r.filter p) := by
  induction h with
  | nil => exact DeletesOccurrences.nil
  | keep c _ ih =>
    cases hp : p c with
    | true =>
      simp only [List.filter_cons, hp, if_true]
      exact DeletesOccurrences.keep c ih
    | false =>
      simpa only [List.filter_cons, hp, Bool.false_eq_true, if_false] using ih
  | drop _ ih =>
    rw [List.filter_append]
    exact DeletesOccurrences.drop ih

theorem processModelName_eq (modelName : QString) :
    processModelName modelName =
      (removeAll "(Default)".toList (modelName.filter isScoreChar)).filter
        (fun c => decide (c ≠ '-')) := by
  have hspace : removeAll " ".toList (modelName.filter isScoreChar) =
      modelName.filter isScoreChar := by
    show removeAll [' '] _ = _
    rw [removeAll_singleton, List.filter_filter]
    apply List.filter_congr
    intro c _
    cases hc : isScoreChar c with
    | false => simp
    | true =>
      have : c ≠ ' ' := by
        rintro rfl
        revert hc
        decide
      simp [this]
  simp only [processModelName]
  rw [removeMatches_not_isScoreChar, filter_isScoreChar_simplified,
    filter_isScoreChar_removeMatches_isMarker, hspace]
  show removeAll ['-'] _ = _
  rw [removeAll_singleton]

/-- C11: for every input, every character of `processModelName(modelName)` is an
ASCII letter, an ASCII digit, `(` or `)`, so it is no whitespace, no hyphen and
none of the marker characters. The result is the input with characters taken
out and the others in their order: what is taken out is every character
outside `a-zA-Z0-9()-`, then whole occurrences of "(Default)" in what is left,
then the hyphens. So the letters and digits of the result are those of the
input, in order, less the letters of removed "(Default)" occurrences. -/
theorem processModelName_chars (modelName : QString) :
    (∀ c ∈ processModelName modelName,
        (isAsciiAlnum c = true ∨ c = '(' ∨ c = ')') ∧ isSpace c = false ∧ c ≠ '-' ∧
          isMarker c = false) ∧
      (processModelName modelName).Sublist modelName ∧
      DeletesOccurrences "(Default)".toList (modelName.filter isScoreChar)
        (removeAll "(Default)".toList (modelName.filter isScoreChar)) ∧
      processModelName modelName =
        (removeAll "(Default)".toList (modelName.filter isScoreChar)).filter
          (fun c => decide (c ≠ '-')) ∧
      DeletesOccurrences "Default".toList (modelName.filter isAsciiAlnum)
        ((processModelName modelName).filter isAsciiAlnum) := by
  have hdel := deletesOccurrences_removeAll "(Default)".toList (by decide)
    (modelName.filter isScoreChar).length (modelName.filter isScoreChar) (le_refl _)
  have hsub : (removeAll "(Default)".toList (modelName.filter isScoreChar)).Sublist
      (modelName.filter isScoreChar) := deletesOccurrences_sublist hdel
  refine ⟨?_, ?_, hdel, processModelName_eq modelName, ?_⟩
  · intro c hc
    rw [processModelName_eq, List.mem_filter] at hc
    obtain ⟨hmem, hne⟩ := hc
    have hne2 : c ≠ '-' := by simpa using hne
    have hscore : isScoreChar c = true := (List.mem_filter.1 (hsub.subset hmem)).2
    refine ⟨?_, isSpace_of_isScoreChar c hscore, hne2, isMarker_of_isScoreChar c hscore⟩
    simp only [isScoreChar, Bool.or_eq_true, decide_eq_true_eq] at hscore
    rcases hscore with ((h | h) | h) | h
    · exact Or.inl h
    · exact Or.inr (Or.inl (eq_of_toNat_eq c _ h))
    · exact Or.inr (Or.inr (eq_of_toNat_eq c _ h))
    · exact absurd (eq_of_toNat_eq c _ h) hne2
  · rw [processModelName_eq]
    exact ((List.filter_sublist _).trans hsub).trans (List.filter_sublist _)
  · have h1 := deletesOccurrences_filter isAsciiAlnum hdel
    have hw : "(Default)".toList.filter isAsciiAlnum = "Default".toList := by decide
    have hin : (modelName.filter isScoreChar).filter isAsciiAlnum =
        modelName.filter isAsciiAlnum := by
      rw [List.filter_filter]
      apply List.filter_congr
      intro c _
      cases hc : isAsciiAlnum c with
      | false => simp
      | true => simp [isScoreChar_of_isAsciiAlnum c hc]
    have hout : (processModelName modelName).filter isAsciiAlnum =
        (removeAll "(Default)".toList (modelName.filter isScoreChar)).filter isAsciiAlnum := by
      rw [processModelName_eq, List.filter_filter]
      apply List.filter_congr
      intro c _
      cases hc : isAsciiAlnum c with
      | false => simp
      | true =>
        have : c ≠ '-' := by
          rintro rfl
          revert hc
          decide
        simp [this]
    rw [hw, hin] at h1
    rw [hout]
    exact h1

/-- The cleaner on a model name with a marker, blanks, a hyphen and "(Default)". -/
theorem processModelName_example :
    processModelName "Duck-Amigo v2 (Default) 👀".toList = "DuckAmigov2".toList := by
  decide

end FrogPilot
